import Mathlib

/-!
Verification development for the SteosMorphy morphological analyzer
(`analyzer/analyzer.go`, `analyzer/tagset.go`).

Go strings are modelled as lists of Unicode code points (`Str := List Nat`);
Go iterates strings rune by rune in every routine modelled here, and Go's
byte-wise string comparison coincides with code-point lexicographic order on
valid UTF-8.  Go maps are modelled as association lists whose iteration order
is first-insertion order (one deterministic refinement of Go's unspecified
map order; every theorem below is stated so that it is insensitive to that
choice, and counterexamples are order-robust).  `sort.Slice` / `sort.Strings`
are modelled by insertion sort with the corresponding non-strict comparator:
Go's sort returns some permutation ordered by the comparator, and whenever a
theorem depends on the exact result the sort keys are pairwise distinct, so
every such permutation is the one computed here.
-/

set_option maxHeartbeats 1000000
set_option maxRecDepth 8000

namespace SteosMorphy

/-- Sequence of Unicode code points, the model of a Go string / `[]rune`. -/
abbrev Str : Type := List Nat

/-- Convenience conversion from a Lean string literal to its code points. -/
def strOf (s : String) : Str := s.data.map Char.toNat

/-- Model of `unicode.ToLower` (as lifted by `strings.ToLower`) restricted to
the alphabets the dictionary uses: ASCII letters and the Russian Cyrillic
block (А..Я → а..я, Ё → ё); all other code points are left unchanged. -/
def runeToLower (c : Nat) : Nat :=
  if 65 ≤ c ∧ c ≤ 90 then c + 32
  else if 1040 ≤ c ∧ c ≤ 1071 then c + 32
  else if c = 1025 then 1105
  else c

/-- Model of `unicode.ToUpper` on the same alphabets as `runeToLower`. -/
def runeToUpper (c : Nat) : Nat :=
  if 97 ≤ c ∧ c ≤ 122 then c - 32
  else if 1072 ≤ c ∧ c ≤ 1103 then c - 32
  else if c = 1105 then 1025
  else c

/-- Model of `strings.ToLower`. -/
def strToLower (s : Str) : Str := s.map runeToLower

/-- Model of `strings.ToUpper`. -/
def strToUpper (s : Str) : Str := s.map runeToUpper

/-- Model of `strings.HasSuffix`. -/
def hasSuffix (s suf : Str) : Bool := suf.isSuffixOf s

/-- Model of `strings.TrimSuffix`. -/
def trimSuffix (s suf : Str) : Str :=
  if hasSuffix s suf then s.take (s.length - suf.length) else s

/-- Model of `strings.HasPrefix` (the leading-segment test). -/
def startsWith (s pre : Str) : Bool := pre.isPrefixOf s

/-- Model of `strings.TrimPrefix` (drop the leading segment when present). -/
def trimStart (s pre : Str) : Str :=
  if startsWith s pre then s.drop pre.length else s

/-- Boolean lexicographic strict order on code-point strings: the model of
Go's `<` on strings (byte order on valid UTF-8 = code-point order). -/
def ltb : Str → Str → Bool
  | _, [] => false
  | [], _ :: _ => true
  | a :: s, b :: t => if a < b then true else if a = b then ltb s t else false

/-- Non-strict comparator used to model `sort.Slice(..., less)`: `wLe s t`
holds when `t` is not strictly smaller than `s`. -/
def wLe (s t : Str) : Prop := ltb t s = false

instance : DecidableRel wLe := fun s t => inferInstanceAs (Decidable (ltb t s = false))

/-- Go map read `m[k]` on an association-list model of a map. -/
def assocLookup {α β : Type} [DecidableEq α] (l : List (α × β)) (k : α) : Option β :=
  match l with
  | [] => none
  | (k', v) :: rest => if k = k' then some v else assocLookup rest k

/-- Go map write `m[k] = v`: overwrite the binding when the key is present,
append a fresh binding otherwise (so iteration order is insertion order). -/
def assocSet {α β : Type} [DecidableEq α] (l : List (α × β)) (k : α) (v : β) : List (α × β) :=
  match l with
  | [] => [(k, v)]
  | (k', v') :: rest => if k = k' then (k, v) :: rest else (k', v') :: assocSet rest k v

/-- Model of Go's `sort.Search` binary-search loop: `i, j := lo, hi`; probe
the midpoint, narrow to the half where the answer lies, return `i = j`.  The
loop runs at most `j - i` iterations (the interval shrinks every step), so
the structural budget in the first argument never runs out for the budgets
the callers pass. -/
def sortSearchAux (f : Nat → Bool) : Nat → Nat → Nat → Nat
  | 0, i, _ => i
  | Nat.succ fuel, i, j =>
    if i < j then
      let m := (i + j) / 2
      if f m then sortSearchAux f fuel i m else sortSearchAux f fuel (m + 1) j
    else i

/-- Model of `sort.Search(n, f)`. -/
def sortSearch (n : Nat) (f : Nat → Bool) : Nat := sortSearchAux f n 0 n

/- Data model: the flat DAWG records of `analyzer.go`. -/

/-- Payload record of the main DAWG (`MorphInfo`). -/
structure MorphInfo where
  LemmaID : Nat
  TagsID : Nat
  ParadigmID : Nat
deriving DecidableEq, Repr, Inhabited

/-- Payload record of the prediction DAWG (`PredictInfo`). -/
structure PredictInfo where
  Frequency : Nat
  ParadigmID : Nat
  FormIdx : Nat
  TagsID : Nat
deriving DecidableEq, Repr, Inhabited

/-- Flat DAWG node (`FlatNode`). -/
structure FlatNode where
  PayloadIdx : Nat
  EdgesIdx : Nat
  PayloadLen : Nat
  EdgesLen : Nat
  IsFinal : Bool
deriving DecidableEq, Repr, Inhabited

/-- Flat DAWG edge (`FlatEdge`); `Char` is the rune code point. -/
structure FlatEdge where
  Char : Nat
  NodeID : Nat
deriving DecidableEq, Repr, Inhabited

/-- Stem information of a paradigm (`ParadigmInfo`). -/
structure ParadigmInfo where
  Stem : Str
  NodeID : Nat
deriving DecidableEq, Repr, Inhabited

/-- Candidate produced by the suffix predictor (`PredictionCandidate`). -/
structure PredictionCandidate where
  PredictInfo : PredictInfo
  SuffixLen : Nat
deriving DecidableEq, Repr, Inhabited

/-- In-memory state of the loaded analyzer (`MorphAnalyzer`): string pools,
paradigm maps, and the six flat arrays seen through the mmap views. -/
structure MorphAnalyzer where
  LemmaPool : List Str
  tagsPool : List Str
  paradigms : List (Nat × List ParadigmInfo)
  paradigmToLemmaID : List (Nat × Nat)
  nodes : List FlatNode
  edges : List FlatEdge
  payloads : List MorphInfo
  predictNodes : List FlatNode
  predictEdges : List FlatEdge
  predictPayloads : List PredictInfo
deriving Repr, Inhabited

/- Tagset (`tagset.go`): vocabularies and the `Parsed` constructor. -/

/-- Grammeme set model: the vocabulary lists of `tagset.go`. -/
abbrev GrammemeSet : Type := List Str

/-- Part-of-speech vocabulary (`posTags`). -/
def posTags : GrammemeSet :=
  [strOf "Существительное", strOf "Прилагательное", strOf "Глагол", strOf "Наречие",
   strOf "Причастие", strOf "Деепричастие", strOf "Местоимение", strOf "Числительное",
   strOf "Предлог", strOf "Частица", strOf "Союз", strOf "Междометие", strOf "Вводное слово"]

/-- Animacy vocabulary (`animacyTags`). -/
def animacyTags : GrammemeSet :=
  [strOf "Одушевленное", strOf "Неодушевленное", strOf "одушевленное и неодушевленное"]

/-- Verb-aspect vocabulary (`aspectTags`). -/
def aspectTags : GrammemeSet :=
  [strOf "Совершенный", strOf "Несовершенный", strOf "Двувидовой"]

/-- Case vocabulary (`caseTags`). -/
def caseTags : GrammemeSet :=
  [strOf "Именительный", strOf "Родительный", strOf "Дательный", strOf "Винительный",
   strOf "Творительный", strOf "Предложный", strOf "Звательный", strOf "Местный",
   strOf "Счетный", strOf "Партитивный", strOf "Несклоняемый", strOf "Ждательный"]

/-- Gender vocabulary (`genderTags`). -/
def genderTags : GrammemeSet :=
  [strOf "Мужской", strOf "Женский", strOf "Средний", strOf "Общий", strOf "Парный"]

/-- Mood vocabulary (`moodTags`). -/
def moodTags : GrammemeSet := [strOf "Повелительное"]

/-- Number vocabulary (`numberTags`). -/
def numberTags : GrammemeSet :=
  [strOf "Единственное число", strOf "Множественное число"]

/-- Person vocabulary (`personTags`). -/
def personTags : GrammemeSet :=
  [strOf "1-е лицо", strOf "2-е лицо", strOf "3-е лицо", strOf "нет лица"]

/-- Tense vocabulary (`tenseTags`). -/
def tenseTags : GrammemeSet :=
  [strOf "Прошедшее", strOf "Настоящее", strOf "Будущее", strOf "Будущее аналитическое"]

/-- Transitivity vocabulary (`transTags`). -/
def transTags : GrammemeSet :=
  [strOf "Переходный", strOf "Непереходный", strOf "Лабильный"]

/-- Voice vocabulary (`voiceTags`). -/
def voiceTags : GrammemeSet :=
  [strOf "Действительный", strOf "Страдательный"]

/-- Full morphological parse record (`Parsed`).  `OtherTags` models the Go
set as a duplicate-free list in insertion order. -/
structure Parsed where
  Word : Str
  Lemma : Str
  Tags : Str
  PartOfSpeech : Str
  Animacy : Str
  Aspect : Str
  Case : Str
  Gender : Str
  Mood : Str
  Number : Str
  Person : Str
  Tense : Str
  Transitivity : Str
  Voice : Str
  OtherTags : List Str
deriving DecidableEq, Repr, Inhabited

/-- Model of `strings.Split(s, ",")`: split at every comma (code point 44). -/
def splitOnComma : Str → List Str
  | [] => [[]]
  | c :: rest =>
    let r := splitOnComma rest
    if c = 44 then [] :: r
    else
      match r with
      | [] => [[c]]
      | h :: t => (c :: h) :: t

/-- Destinations of the grammeme dispatch `switch` in `newParsed`, in source
order.  `partOfSpeech` is the skip branch `g == p.PartOfSpeech`. -/
inductive GrammemeDest where
  | partOfSpeech
  | animacy
  | aspect
  | caseCat
  | gender
  | mood
  | number
  | person
  | tense
  | transitivity
  | voice
  | other
deriving DecidableEq, Repr

/-- First branch of the dispatch `switch` in `newParsed` whose guard accepts
`g` (the `switch` statement evaluates its cases in source order and runs
exactly the first match; `other` is the `default` branch). -/
def firstCat (p : Parsed) (g : Str) : GrammemeDest :=
  if g = p.PartOfSpeech then .partOfSpeech
  else if g ∈ animacyTags then .animacy
  else if g ∈ aspectTags then .aspect
  else if g ∈ caseTags then .caseCat
  else if g ∈ genderTags then .gender
  else if g ∈ moodTags then .mood
  else if g ∈ numberTags then .number
  else if g ∈ personTags then .person
  else if g ∈ tenseTags then .tense
  else if g ∈ transTags then .transitivity
  else if g ∈ voiceTags then .voice
  else .other

/-- One iteration of the dispatch loop in `newParsed`: skip a grammeme equal
to the already-fixed part of speech, otherwise write it into the field of the
first matching category, falling through to the `OtherTags` set. -/
def assignGrammeme (p : Parsed) (g : Str) : Parsed :=
  match firstCat p g with
  | .partOfSpeech => p
  | .animacy => { p with Animacy := g }
  | .aspect => { p with Aspect := g }
  | .caseCat => { p with Case := g }
  | .gender => { p with Gender := g }
  | .mood => { p with Mood := g }
  | .number => { p with Number := g }
  | .person => { p with Person := g }
  | .tense => { p with Tense := g }
  | .transitivity => { p with Transitivity := g }
  | .voice => { p with Voice := g }
  | .other => { p with OtherTags := if g ∈ p.OtherTags then p.OtherTags else p.OtherTags ++ [g] }

/-- Model of `newParsed`: build the base record, fix the part of speech from
the first comma-separated token, then dispatch every token. -/
def newParsed (word lemm tagString : Str) : Parsed :=
  let grammemes := splitOnComma tagString
  let pos0 : Str :=
    match grammemes with
    | [] => []
    | g :: _ => if g ∈ posTags then g else []
  grammemes.foldl assignGrammeme
    { Word := word, Lemma := lemm, Tags := tagString, PartOfSpeech := pos0,
      Animacy := [], Aspect := [], Case := [], Gender := [], Mood := [], Number := [],
      Person := [], Tense := [], Transitivity := [], Voice := [], OtherTags := [] }

/- DAWG traversal and the query operations of `analyzer.go`. -/

/-- Model of `findChildGeneral`: look up the edge window of `nodes[nodeIndex]`
and binary-search it (`sort.Search`) for the first edge whose `Char ≥ char`;
return its `NodeID` on an exact hit.  Go indexes `nodes[nodeIndex]` directly
and panics when the index is out of range; the model totalizes that access
with a default (edgeless, non-final) node, so statements about it carry the
valid-index hypothesis and every concrete analyzer in this development keeps
all walked indices in range, where model and code agree step by step. -/
def findChildGeneral (nodeIndex : Nat) (char : Nat) (nodes : List FlatNode)
    (edges : List FlatEdge) : Option Nat :=
  let node := nodes.getD nodeIndex default
  if node.EdgesLen = 0 then none
  else
    let searchSlice := (edges.drop node.EdgesIdx).take node.EdgesLen
    let i := sortSearch searchSlice.length (fun i => decide (char ≤ (searchSlice.getD i default).Char))
    if i < searchSlice.length ∧ (searchSlice.getD i default).Char = char then
      some (searchSlice.getD i default).NodeID
    else none

/-- Character-by-character walk from a node (the walk loops of `Parse`,
`Inflect` and `findBestPrediction`). -/
def walkFrom (nodes : List FlatNode) (edges : List FlatEdge) (start : Nat) : Str → Option Nat
  | [] => some start
  | c :: rest =>
    match findChildGeneral start c nodes edges with
    | none => none
    | some child => walkFrom nodes edges child rest

/-- Payload window `payloads[PayloadIdx : PayloadIdx+PayloadLen]` of a node. -/
def payloadWindow {α : Type} (payloads : List α) (node : FlatNode) : List α :=
  (payloads.drop node.PayloadIdx).take node.PayloadLen

/-- Edge window `edges[EdgesIdx : EdgesIdx+EdgesLen]` of a node. -/
def edgeWindow (edges : List FlatEdge) (node : FlatNode) : List FlatEdge :=
  (edges.drop node.EdgesIdx).take node.EdgesLen

/-- Model of `Parse`: lower-case the word, walk the main DAWG, and emit one
`Parsed` per payload entry of the final node reached. -/
def Parse (a : MorphAnalyzer) (word : Str) : List Parsed :=
  let lowerWord := strToLower word
  match walkFrom a.nodes a.edges 0 lowerWord with
  | none => []
  | some idx =>
    let node := a.nodes.getD idx default
    if node.IsFinal then
      (payloadWindow a.payloads node).map fun info =>
        newParsed word (a.LemmaPool.getD info.LemmaID []) (a.tagsPool.getD info.TagsID [])
    else []

/-- Recursive core of `dfsGenerate` (`findWord` in the Go source), with an
explicit recursion-depth budget.  The Go function recurses without a budget
and terminates because the DAWG is acyclic; callers here pass a budget of
`a.nodes.length`, which bounds the simple-path depth of any acyclic graph,
so on well-formed data the two agree. -/
def dfsFindWord (a : MorphAnalyzer) (stemChars : Str) (targetID : Nat) :
    Nat → Nat → Str → List (Str × Nat) → List (Str × Nat)
  | 0, _, _, results => results
  | Nat.succ fuel, currNodeIdx, currentSuffix, results =>
    let currNode := a.nodes.getD currNodeIdx default
    let results1 :=
      if currNode.IsFinal then
        (payloadWindow a.payloads currNode).foldl
          (fun r info =>
            if info.ParadigmID = targetID then assocSet r (stemChars ++ currentSuffix) info.TagsID
            else r)
          results
      else results
    (edgeWindow a.edges currNode).foldl
      (fun r edge => dfsFindWord a stemChars targetID fuel edge.NodeID (currentSuffix ++ [edge.Char]) r)
      results1

/-- Model of `dfsGenerate`: depth-first enumeration of all surface forms below
`nodeIndex` whose payload matches `targetID`, keyed by `stem ++ suffix`. -/
def dfsGenerate (a : MorphAnalyzer) (nodeIndex : Nat) (stemChars : Str) (targetID : Nat)
    (results : List (Str × Nat)) : List (Str × Nat) :=
  dfsFindWord a stemChars targetID a.nodes.length nodeIndex [] results

/-- Relation used to model `sort.Strings` (ascending string sort). -/
def strLE : Str → Str → Prop := wLe

instance : DecidableRel strLE := fun s t => inferInstanceAs (Decidable (ltb t s = false))

/-- Model of `getFormsByParadigmID`: generate every form of every stem of the
paradigm, de-duplicate via the map, and sort the unique forms ascending. -/
def getFormsByParadigmID (a : MorphAnalyzer) (pID : Nat) : List Str :=
  match assocLookup a.paradigms pID with
  | none => []
  | some paradigmInfoSlice =>
    let resultsMap := paradigmInfoSlice.foldl
      (fun m pInfo => dfsGenerate a pInfo.NodeID pInfo.Stem pID m) []
    if resultsMap.isEmpty then []
    else List.insertionSort strLE (resultsMap.map Prod.fst)

/-- Comparator on parse records used by every `sort.Slice(..., Word < Word)`
call in the source. -/
def parsedLE (p q : Parsed) : Prop := wLe p.Word q.Word

instance : DecidableRel parsedLE := fun p q => inferInstanceAs (Decidable (ltb q.Word p.Word = false))

/-- Map `paradigmsToProcess` of `Inflect`: re-walk the lowered word and
collect `ParadigmID → lemma` over the terminal payload window (`Inflect`
reads the window whenever the walk succeeds, without re-checking `IsFinal`). -/
def inflectParadigms (a : MorphAnalyzer) (word : Str) : List (Nat × Str) :=
  match walkFrom a.nodes a.edges 0 (strToLower word) with
  | none => []
  | some idx =>
    let node := a.nodes.getD idx default
    (payloadWindow a.payloads node).foldl
      (fun m info => assocSet m info.ParadigmID (a.LemmaPool.getD info.LemmaID [])) []

/-- Innermost loop body of `Inflect`: merge one generated `(form, tagsID)`
pair into `finalResults`, keeping the first record seen per surface form. -/
def inflectFormStep (lem : Str) (tagsPool : List Str) (fr : List (Str × Parsed))
    (fv : Str × Nat) : List (Str × Parsed) :=
  if (assocLookup fr fv.1).isSome then fr
  else fr ++ [(fv.1, newParsed fv.1 lem (tagsPool.getD fv.2 []))]

/-- Middle loop body of `Inflect`: generate all forms below one stem of the
paradigm and merge them. -/
def inflectStemStep (a : MorphAnalyzer) (pID : Nat) (lem : Str)
    (fr : List (Str × Parsed)) (pInfo : ParadigmInfo) : List (Str × Parsed) :=
  (dfsGenerate a pInfo.NodeID pInfo.Stem pID []).foldl (inflectFormStep lem a.tagsPool) fr

/-- Outer loop body of `Inflect`: process one collected paradigm (skipped when
absent from the paradigm table). -/
def inflectParadigmStep (a : MorphAnalyzer) (fr : List (Str × Parsed))
    (pl : Nat × Str) : List (Str × Parsed) :=
  match assocLookup a.paradigms pl.1 with
  | none => fr
  | some paradigmInfoSlice => paradigmInfoSlice.foldl (inflectStemStep a pl.1 pl.2) fr

/-- Map `finalResults` of `Inflect`, keyed by surface form. -/
def inflectResults (a : MorphAnalyzer) (word : Str) : List (Str × Parsed) :=
  (inflectParadigms a word).foldl (inflectParadigmStep a) []

/-- Model of `Inflect`: collect the distinct paradigm ids (with lemmas) at the
word's terminal node, generate all forms of every stem of every collected
paradigm, keep the first record per surface form, and sort ascending. -/
def Inflect (a : MorphAnalyzer) (word : Str) : List Parsed :=
  if (Parse a word).isEmpty then []
  else
    if (inflectResults a word).isEmpty then []
    else List.insertionSort parsedLE ((inflectResults a word).map Prod.snd)

/- Suffix predictor. -/

/-- Candidates contributed by the suffix of length `suffixLen` (one loop
iteration of `findBestPrediction`): skip over-long suffixes, walk the
prediction DAWG, and collect the payload of a final end node. -/
def probeSuffix (a : MorphAnalyzer) (runes : Str) (suffixLen : Nat) : List PredictionCandidate :=
  if suffixLen > runes.length then []
  else
    let suffix := runes.drop (runes.length - suffixLen)
    match walkFrom a.predictNodes a.predictEdges 0 suffix with
    | none => []
    | some idx =>
      let node := a.predictNodes.getD idx default
      if node.IsFinal then
        (payloadWindow a.predictPayloads node).map fun p =>
          { PredictInfo := p, SuffixLen := suffixLen }
      else []

/-- Comparator modelling the candidate sort of `findBestPrediction`
(`SuffixLen` descending, then `Frequency` descending): `candLess c d` holds
when `c` must come strictly before `d`. -/
def candLess (c d : PredictionCandidate) : Prop :=
  d.SuffixLen < c.SuffixLen ∨
    (c.SuffixLen = d.SuffixLen ∧ d.PredictInfo.Frequency < c.PredictInfo.Frequency)

/-- Non-strict version of `candLess` used to run the sort. -/
def candLE (c d : PredictionCandidate) : Prop := ¬ candLess d c

instance : DecidableRel candLess := fun _ _ => inferInstanceAs (Decidable (_ ∨ _))

instance : DecidableRel candLE := fun _ _ => inferInstanceAs (Decidable (¬ _))

/-- Candidate list gathered by the probing loop of `findBestPrediction`
(suffix lengths tried from 5 down to 1, in that order). -/
def predictCandidates (a : MorphAnalyzer) (word : Str) : List PredictionCandidate :=
  [5, 4, 3, 2, 1].flatMap (probeSuffix a word)

/-- Model of `findBestPrediction`: probe suffix lengths 5 down to 1, gather
all candidates, and return a best one (longest suffix, then most frequent). -/
def findBestPrediction (a : MorphAnalyzer) (word : Str) : Option PredictionCandidate :=
  if (predictCandidates a word).isEmpty then none
  else (List.insertionSort candLE (predictCandidates a word)).head?

/-- Model of `ParsePredicted`: apply the best suffix rule by proportional
substitution, falling back to `lemma := lowerWord` whenever the analogy is
unsafe, and emit a single parse with the rule's tag string. -/
def ParsePredicted (a : MorphAnalyzer) (word : Str) : List Parsed :=
  let lowerWord := strToLower word
  match findBestPrediction a lowerWord with
  | none => []
  | some best =>
    let allFormsOfTemplate := getFormsByParadigmID a best.PredictInfo.ParadigmID
    let lemmaIDOpt := assocLookup a.paradigmToLemmaID best.PredictInfo.ParadigmID
    let predictedLemma : Str :=
      if lemmaIDOpt.isNone ∨ allFormsOfTemplate.length = 0 ∨
          allFormsOfTemplate.length ≤ best.PredictInfo.FormIdx then
        lowerWord
      else
        let wordOfTemplate := allFormsOfTemplate.getD best.PredictInfo.FormIdx []
        let lemmaOfTemplate := a.LemmaPool.getD (lemmaIDOpt.getD 0) []
        if wordOfTemplate.length < best.SuffixLen then lowerWord
        else
          let commonSuffix := lowerWord.drop (lowerWord.length - best.SuffixLen)
          if ¬ hasSuffix wordOfTemplate commonSuffix then lowerWord
          else
            let oovStem := trimSuffix lowerWord commonSuffix
            let templateWordStem := trimSuffix wordOfTemplate commonSuffix
            if ¬ startsWith lemmaOfTemplate templateWordStem then lowerWord
            else oovStem ++ trimStart lemmaOfTemplate templateWordStem
    [newParsed word predictedLemma (a.tagsPool.getD best.PredictInfo.TagsID [])]

/-- Model of `Predict`: generate the full paradigm of an out-of-vocabulary
word by replacing the template stem with the input stem in every template
form; the supplied lemma is stored verbatim in each record. -/
def Predict (a : MorphAnalyzer) (word lemm : Str) : List Parsed :=
  let lowerWord := strToLower word
  match findBestPrediction a lowerWord with
  | none => []
  | some best =>
    let allFormsInParadigm := getFormsByParadigmID a best.PredictInfo.ParadigmID
    if allFormsInParadigm.length = 0 ∨ allFormsInParadigm.length ≤ best.PredictInfo.FormIdx then []
    else
      let wordOfTemplate := allFormsInParadigm.getD best.PredictInfo.FormIdx []
      if wordOfTemplate.length < best.SuffixLen then []
      else
        let commonSuffix := lowerWord.drop (lowerWord.length - best.SuffixLen)
        if ¬ hasSuffix wordOfTemplate commonSuffix then []
        else
          let inputStem := trimSuffix lowerWord commonSuffix
          let dictStem := trimSuffix wordOfTemplate commonSuffix
          let formsAndTags :=
            (assocLookup a.paradigms best.PredictInfo.ParadigmID).getD [] |>.foldl
              (fun m pInfo => dfsGenerate a pInfo.NodeID pInfo.Stem best.PredictInfo.ParadigmID m) []
          let results := formsAndTags.foldl
            (fun rs fv =>
              if startsWith fv.1 dictStem then
                rs ++ [newParsed (inputStem ++ trimStart fv.1 dictStem) lemm (a.tagsPool.getD fv.2 [])]
              else rs)
            []
          if results.isEmpty then []
          else List.insertionSort parsedLE results

/-- Model of `Analyze`: dictionary parses and forms when the word is known,
otherwise the predicted parse and predicted forms. -/
def Analyze (a : MorphAnalyzer) (word : Str) : List Parsed × List Parsed :=
  let parses := Parse a word
  if ¬ parses.isEmpty then (parses, Inflect a word)
  else
    let predictedParses := ParsePredicted a word
    if predictedParses.isEmpty then ([], [])
    else (predictedParses, Predict a word (predictedParses.getD 0 default).Lemma)

/-- Structural core of the chunk partitioner; the budget in the first
argument dominates the list length, so it never runs out as called. -/
def chunkedAux : Nat → List Str → List (List Str)
  | 0, _ => []
  | Nat.succ fuel, l => if l = [] then [] else l.take 1000 :: chunkedAux fuel (l.drop 1000)

/-- Partition into chunks of 1000 words, as the batch dispatcher does. -/
def chunked1000 (l : List Str) : List (List Str) :=
  chunkedAux l.length l

/-- Model of `ParseList`: run `Analyze` per word of each chunk, keep the
parses component, concatenate everything, and sort by surface word.  The
worker pool's interleaving only permutes the list that is finally sorted, so
this sequential schedule yields the same multiset. -/
def ParseList (a : MorphAnalyzer) (words : List Str) : List Parsed :=
  let gathered := ((chunked1000 words).map
    (fun chunk => chunk.flatMap fun w => (Analyze a w).1)).flatten
  List.insertionSort parsedLE gathered

/- Loader (`loadInternal`): byte-level model of header parsing and region
slicing.  The gzip+gob pipeline that decodes the complex block is an external
format and is modelled by an abstract decoder argument. -/

/-- Deserialized complex block (`ComplexData`). -/
structure ComplexData where
  LemmaPool : List Str
  TagsPool : List Str
  Paradigms : List (Nat × List ParadigmInfo)
  ParadigmToLemmaID : List (Nat × Nat)
deriving Repr, Inhabited, DecidableEq

/-- Error outcomes of `loadInternal`.  The Go function returns wrapped `error`
values for the first four; `slicePanic` models the runtime panic Go raises
when a slice expression `mmapFile[a:b]` is out of range (no error value of
the loader corresponds to it, and no other failure exists in the source). -/
inductive LoadError where
  | headerTooShort
  | badMagic
  | gzipError
  | gobError
  | slicePanic
deriving DecidableEq, Repr

/-- Result of a successful load: the decoded complex block plus the six
fixed-record regions, kept as raw little-endian record chunks exactly as the
zero-copy views (`bytesToSlice`) expose them. -/
structure LoadedAnalyzer where
  complexData : ComplexData
  nodesBytes : List (List Nat)
  edgesBytes : List (List Nat)
  payloadsBytes : List (List Nat)
  predictNodesBytes : List (List Nat)
  predictEdgesBytes : List (List Nat)
  predictPayloadsBytes : List (List Nat)
deriving DecidableEq, Repr

/-- Go slice expression `b[lo:hi]` with its bound checks: panics (modelled as
`none`) unless `0 ≤ lo ≤ hi ≤ len(b)`. -/
def goSlice (b : List Nat) (lo hi : Int) : Option (List Nat) :=
  if 0 ≤ lo ∧ lo ≤ hi ∧ hi ≤ (b.length : Int) then
    some ((b.take hi.toNat).drop lo.toNat)
  else none

/-- Little-endian unsigned 64-bit read at byte offset `off`. -/
def readU64LE (b : List Nat) (off : Nat) : Nat :=
  (List.range 8).foldl (fun acc i => acc + b.getD (off + i) 0 * 256 ^ i) 0

/-- Little-endian signed 64-bit read (two's complement), as `binary.Read`
decodes the `int64` header fields. -/
def readI64LE (b : List Nat) (off : Nat) : Int :=
  let u := readU64LE b off
  if u < 2 ^ 63 then (u : Int) else (u : Int) - 2 ^ 64

/-- Model of `bytesToSlice[T]`: reinterpret a byte region as records of
`size` bytes; the record count is `len(b) / size` (floor division). -/
def bytesToSlice (size : Nat) (b : List Nat) : List (List Nat) :=
  if b.length = 0 then []
  else (List.range (b.length / size)).map fun i => (b.drop (i * size)).take size

/-- Record sizes (`unsafe.Sizeof`) of the fixed-record types on the 64-bit
little-endian targets the loader supports: `FlatNode` 16 (13 bytes of fields
plus trailing padding), `FlatEdge` 8, `MorphInfo` 12, `PredictInfo` 16. -/
def flatNodeSize : Nat := 16

/-- Size of a serialized `FlatEdge`. -/
def flatEdgeSize : Nat := 8

/-- Size of a serialized `MorphInfo`. -/
def morphInfoSize : Nat := 12

/-- Size of a serialized `PredictInfo`. -/
def predictInfoSize : Nat := 16

/-- Size `unsafe.Sizeof(Header{})` = 120: 4 magic bytes, 4 alignment padding
bytes before the first `int64` field, and 14 × 8 field bytes.  `binary.Read`
itself decodes the fields packed, i.e. at offsets 4, 12, …, 108. -/
def headerSize : Nat := 120

/-- Header field `i` (0 = ComplexDataOffset … 13 = PredictPayloadsCount). -/
def headerField (file : List Nat) (i : Nat) : Int := readI64LE file (4 + 8 * i)

/-- Model of `loadInternal` on the mapped bytes.  `decodeComplex` abstracts
the gzip-decompress + gob-decode pipeline (`none` models either failure).
Every fixed-record region is carved as exactly `count × sizeof(record)` bytes
starting at its offset; no comparison against the region's extent in the
file is ever made. -/
def loadInternal (file : List Nat) (decodeComplex : List Nat → Option ComplexData) :
    Except LoadError LoadedAnalyzer :=
  if file.length < headerSize then .error .headerTooShort
  else if file.take 4 ≠ [68, 65, 87, 55] then .error .badMagic
  else
    let h := headerField file
    match goSlice file (h 0) (h 0 + h 1) with
    | none => .error .slicePanic
    | some compressedBlock =>
      match decodeComplex compressedBlock with
      | none => .error .gobError
      | some complexData =>
        match goSlice file (h 2) (h 2 + h 3 * (flatNodeSize : Int)) with
        | none => .error .slicePanic
        | some nodesB =>
          match goSlice file (h 4) (h 4 + h 5 * (flatEdgeSize : Int)) with
          | none => .error .slicePanic
          | some edgesB =>
            match goSlice file (h 6) (h 6 + h 7 * (morphInfoSize : Int)) with
            | none => .error .slicePanic
            | some payloadsB =>
              match goSlice file (h 8) (h 8 + h 9 * (flatNodeSize : Int)) with
              | none => .error .slicePanic
              | some predictNodesB =>
                match goSlice file (h 10) (h 10 + h 11 * (flatEdgeSize : Int)) with
                | none => .error .slicePanic
                | some predictEdgesB =>
                  match goSlice file (h 12) (h 12 + h 13 * (predictInfoSize : Int)) with
                  | none => .error .slicePanic
                  | some predictPayloadsB =>
                    .ok
                      { complexData := complexData
                        nodesBytes := bytesToSlice flatNodeSize nodesB
                        edgesBytes := bytesToSlice flatEdgeSize edgesB
                        payloadsBytes := bytesToSlice morphInfoSize payloadsB
                        predictNodesBytes := bytesToSlice flatNodeSize predictNodesB
                        predictEdgesBytes := bytesToSlice flatEdgeSize predictEdgesB
                        predictPayloadsBytes := bytesToSlice predictInfoSize predictPayloadsB }

/- Lexicographic-order infrastructure for the sort comparators. -/

theorem ltb_irrefl (s : Str) : ltb s s = false := by
  induction s with
  | nil => rfl
  | cons a t ih => simp [ltb, ih]

theorem ltb_trans : ∀ {a b c : Str}, ltb a b = true → ltb b c = true → ltb a c = true := by
  intro a
  induction a with
  | nil =>
    intro b c hab hbc
    cases c with
    | nil =>
      cases b with
      | nil => simpa using hab
      | cons y t => simp [ltb] at hbc
    | cons z u => simp [ltb]
  | cons x s ih =>
    intro b c hab hbc
    cases b with
    | nil => simp [ltb] at hab
    | cons y t =>
      cases c with
      | nil => simp [ltb] at hbc
      | cons z u =>
        simp only [ltb] at hab hbc ⊢
        split_ifs at hab hbc ⊢ with h1 h2 h3 h4 h5 h6 <;>
          first
          | rfl
          | omega
          | (exact ih hab hbc)
          | (subst_vars; omega)
          | simp_all

theorem ltb_conn : ∀ {a b : Str}, ltb a b = false → ltb b a = false → a = b := by
  intro a
  induction a with
  | nil =>
    intro b hab _
    cases b with
    | nil => rfl
    | cons y t => simp [ltb] at hab
  | cons x s ih =>
    intro b hab hba
    cases b with
    | nil => simp [ltb] at hba
    | cons y t =>
      simp only [ltb] at hab hba
      split_ifs at hab hba with h1 h2 <;>
        first
        | omega
        | simp_all
        | (subst_vars; rw [ih hab hba])

theorem ltb_asymm {a b : Str} (h : ltb a b = true) : ltb b a = false := by
  by_contra hba
  have : ltb b a = true := by
    cases hb : ltb b a with
    | false => exact absurd hb hba
    | true => rfl
  have := ltb_trans h this
  rw [ltb_irrefl] at this
  exact Bool.false_ne_true this

theorem ltb_false_trans {a b c : Str} (hba : ltb b a = false) (hcb : ltb c b = false) :
    ltb c a = false := by
  cases hab : ltb a b with
  | true =>
    cases hca : ltb c a with
    | false => rfl
    | true =>
      have := ltb_trans hca hab
      rw [this] at hcb
      exact absurd hcb (by simp)
  | false =>
    have : a = b := ltb_conn hab hba
    rw [← this] at hcb
    exact hcb

instance : IsTotal Parsed parsedLE := by
  constructor
  intro p q
  unfold parsedLE wLe
  cases h : ltb q.Word p.Word with
  | false => exact Or.inl rfl
  | true => exact Or.inr (ltb_asymm h)

instance : IsTrans Parsed parsedLE := by
  constructor
  intro p q r hpq hqr
  unfold parsedLE wLe at *
  exact ltb_false_trans hpq hqr

instance : IsTotal Str strLE := by
  constructor
  intro s t
  unfold strLE wLe
  cases h : ltb t s with
  | false => exact Or.inl rfl
  | true => exact Or.inr (ltb_asymm h)

instance : IsTrans Str strLE := by
  constructor
  intro s t u hst htu
  unfold strLE wLe at *
  exact ltb_false_trans hst htu

instance : IsTotal PredictionCandidate candLE := by
  constructor
  intro c d
  unfold candLE candLess
  omega

instance : IsTrans PredictionCandidate candLE := by
  constructor
  intro c d e hcd hde
  unfold candLE candLess at *
  omega

theorem strict_of_le_of_ne {p q : Parsed} (hle : parsedLE p q) (hne : p.Word ≠ q.Word) :
    ltb p.Word q.Word = true := by
  unfold parsedLE wLe at hle
  cases h : ltb p.Word q.Word with
  | true => rfl
  | false => exact absurd (ltb_conn h hle) hne

/- Correctness of the `sort.Search` model. -/

theorem sortSearchAux_spec (f : Nat → Bool) :
    ∀ fuel i j, j - i ≤ fuel → i ≤ j →
      i ≤ sortSearchAux f fuel i j ∧ sortSearchAux f fuel i j ≤ j ∧
      (sortSearchAux f fuel i j < j → f (sortSearchAux f fuel i j) = true) ∧
      (i < sortSearchAux f fuel i j → f (sortSearchAux f fuel i j - 1) = false) := by
  intro fuel
  induction fuel with
  | zero =>
    intro i j hn hij
    have hij' : i = j := by omega
    subst hij'
    simp [sortSearchAux]
  | succ fuel ih =>
    intro i j hn hij
    simp only [sortSearchAux]
    by_cases hlt : i < j
    · simp only [if_pos hlt]
      set m := (i + j) / 2 with hm
      have hmlt : m < j := by omega
      have hmge : i ≤ m := by omega
      cases hfm : f m with
      | true =>
        rw [if_pos rfl]
        have hrec := ih i m (by omega) hmge
        refine ⟨hrec.1, by omega, ?_, hrec.2.2.2⟩
        intro _
        rcases Nat.lt_or_ge (sortSearchAux f fuel i m) m with h | h
        · exact hrec.2.2.1 h
        · have heq : sortSearchAux f fuel i m = m := by omega
          rw [heq]
          exact hfm
      | false =>
        rw [if_neg (by simp)]
        have hrec := ih (m + 1) j (by omega) (by omega)
        refine ⟨by omega, hrec.2.1, hrec.2.2.1, ?_⟩
        intro _
        rcases Nat.lt_or_ge (m + 1) (sortSearchAux f fuel (m + 1) j) with h | h
        · exact hrec.2.2.2 h
        · have heq : sortSearchAux f fuel (m + 1) j = m + 1 := by omega
          rw [heq]
          simpa using hfm
    · rw [if_neg hlt]
      exact ⟨Nat.le_refl i, hij, fun h => absurd h hlt, fun h => absurd h (by omega)⟩

theorem sortSearch_spec (f : Nat → Bool) (n : Nat) :
    sortSearch n f ≤ n ∧ (sortSearch n f < n → f (sortSearch n f) = true) ∧
      (0 < sortSearch n f → f (sortSearch n f - 1) = false) := by
  have := sortSearchAux_spec f n 0 n (by omega) (by omega)
  exact ⟨this.2.1, this.2.2.1, this.2.2.2⟩

theorem mono_up (f : Nat → Bool) (n : Nat)
    (hmono : ∀ k, k + 1 < n → f k = true → f (k + 1) = true) :
    ∀ k m, k ≤ m → m < n → f k = true → f m = true := by
  intro k m hkm
  induction m, hkm using Nat.le_induction with
  | base => intro _ h; exact h
  | succ m hkm ih =>
    intro hmn hfk
    exact hmono m hmn (ih (by omega) hfk)

/- Analysis of `findChildGeneral` on sorted edge windows. -/

theorem findChildGeneral_eq (nodeIndex char : Nat) (nodes : List FlatNode)
    (edges : List FlatEdge) :
    findChildGeneral nodeIndex char nodes edges =
      (if (nodes.getD nodeIndex default).EdgesLen = 0 then none
       else
         let w := edgeWindow edges (nodes.getD nodeIndex default)
         let i := sortSearch w.length (fun k => decide (char ≤ (w.getD k default).Char))
         if i < w.length ∧ (w.getD i default).Char = char then
           some (w.getD i default).NodeID
         else none) := rfl

theorem findChild_window_mono (char : Nat) (w : List FlatEdge)
    (hsorted : List.Pairwise (fun e e' : FlatEdge => e.Char < e'.Char) w) :
    ∀ k, k + 1 < w.length →
      decide (char ≤ (w.getD k default).Char) = true →
      decide (char ≤ (w.getD (k + 1) default).Char) = true := by
  intro k hk hfk
  have hk' : k < w.length := by omega
  rw [List.getD_eq_getElem w default hk'] at hfk
  rw [List.getD_eq_getElem w default hk]
  have hlt := List.pairwise_iff_get.mp hsorted ⟨k, hk'⟩ ⟨k + 1, hk⟩ (by simp)
  simp only [List.get_eq_getElem] at hlt
  simp only [decide_eq_true_eq] at hfk ⊢
  omega

/-- C6: for every valid node index and character, `find_child` returns `none`
on an empty edge window, and otherwise, when the window is sorted strictly
ascending by `Char` (hence duplicate-free), it returns the `NodeID` of the
edge whose `Char` equals the character when such an edge exists in the window
and `none` when it does not. -/
theorem C6_find_child_sorted_window (nodes : List FlatNode) (edges : List FlatEdge)
    (nodeIndex char : Nat) (hvalid : nodeIndex < nodes.length)
    (hsorted : List.Pairwise (fun e e' : FlatEdge => e.Char < e'.Char)
      (edgeWindow edges (nodes.getD nodeIndex default))) :
    ((nodes.getD nodeIndex default).EdgesLen = 0 →
        findChildGeneral nodeIndex char nodes edges = none) ∧
    (∀ e ∈ edgeWindow edges (nodes.getD nodeIndex default), e.Char = char →
        findChildGeneral nodeIndex char nodes edges = some e.NodeID) ∧
    ((∀ e ∈ edgeWindow edges (nodes.getD nodeIndex default), e.Char ≠ char) →
        findChildGeneral nodeIndex char nodes edges = none) := by
  rw [findChildGeneral_eq]
  set node := nodes.getD nodeIndex default with hnode
  set w := edgeWindow edges node with hwdef
  set f : Nat → Bool := fun k => decide (char ≤ (w.getD k default).Char) with hf
  set r := sortSearch w.length f with hr
  have hspec := sortSearch_spec f w.length
  have hmono := findChild_window_mono char w hsorted
  refine ⟨fun h0 => by simp [h0], ?_, ?_⟩
  · intro e he hechar
    have h0 : ¬ node.EdgesLen = 0 := by
      intro h0
      rw [hwdef] at he
      unfold edgeWindow at he
      rw [h0] at he
      simp at he
    rw [if_neg h0]
    obtain ⟨t, ht⟩ := List.mem_iff_get.mp he
    have hft : f t.val = true := by
      rw [hf]
      have := List.getD_eq_getElem w default t.isLt
      simp only [this, decide_eq_true_eq]
      have : w[t.val] = e := by
        rw [← ht]
        simp
      rw [this, hechar]
    have hrt : r ≤ t.val := by
      by_contra hgt
      push_neg at hgt
      have h0r : 0 < r := by omega
      have hfr1 : f (r - 1) = false := hspec.2.2 h0r
      have : f (r - 1) = true := by
        refine mono_up f w.length hmono t.val (r - 1) (by omega) (by omega) hft
      rw [this] at hfr1
      exact absurd hfr1 (by simp)
    have hrn : r < w.length := lt_of_le_of_lt hrt t.isLt
    have hfr : f r = true := hspec.2.1 hrn
    have hreq : r = t.val := by
      by_contra hne
      have hrlt : r < t.val := by omega
      have hlt := List.pairwise_iff_get.mp hsorted ⟨r, hrn⟩ t hrlt
      rw [ht] at hlt
      simp only [hf, List.getD_eq_getElem w default hrn, decide_eq_true_eq] at hfr
      simp only [List.get_eq_getElem] at hlt
      omega
    have hwr : w.getD r default = e := by
      rw [List.getD_eq_getElem w default hrn]
      have hfin : (⟨r, hrn⟩ : Fin w.length) = t := Fin.ext hreq
      rw [← ht, ← hfin]
      simp
    rw [if_pos ⟨hrn, by rw [hwr, hechar]⟩, hwr]
  · intro hno
    by_cases h0 : node.EdgesLen = 0
    · rw [if_pos h0]
    · rw [if_neg h0]
      by_cases hrn : r < w.length
      · have hmem : w.getD r default ∈ w := by
          rw [List.getD_eq_getElem w default hrn]
          exact List.getElem_mem hrn
        rw [if_neg]
        intro hcond
        exact hno _ hmem hcond.2
      · rw [if_neg]
        intro hcond
        exact hrn hcond.1

/- Facts about `newParsed` and the grammeme dispatch. -/

theorem assignGrammeme_Word (p : Parsed) (g : Str) : (assignGrammeme p g).Word = p.Word := by
  unfold assignGrammeme
  cases hc : firstCat p g <;> rfl

theorem assignGrammeme_Lemma (p : Parsed) (g : Str) : (assignGrammeme p g).Lemma = p.Lemma := by
  unfold assignGrammeme
  cases hc : firstCat p g <;> rfl

theorem assignGrammeme_Tags (p : Parsed) (g : Str) : (assignGrammeme p g).Tags = p.Tags := by
  unfold assignGrammeme
  cases hc : firstCat p g <;> rfl

theorem assignGrammeme_PartOfSpeech (p : Parsed) (g : Str) :
    (assignGrammeme p g).PartOfSpeech = p.PartOfSpeech := by
  unfold assignGrammeme
  cases hc : firstCat p g <;> rfl

theorem foldl_assignGrammeme_Word (gs : List Str) :
    ∀ p : Parsed, (gs.foldl assignGrammeme p).Word = p.Word := by
  induction gs with
  | nil => intro p; rfl
  | cons g gs ih =>
    intro p
    rw [List.foldl_cons, ih, assignGrammeme_Word]

theorem foldl_assignGrammeme_Lemma (gs : List Str) :
    ∀ p : Parsed, (gs.foldl assignGrammeme p).Lemma = p.Lemma := by
  induction gs with
  | nil => intro p; rfl
  | cons g gs ih =>
    intro p
    rw [List.foldl_cons, ih, assignGrammeme_Lemma]

theorem foldl_assignGrammeme_Tags (gs : List Str) :
    ∀ p : Parsed, (gs.foldl assignGrammeme p).Tags = p.Tags := by
  induction gs with
  | nil => intro p; rfl
  | cons g gs ih =>
    intro p
    rw [List.foldl_cons, ih, assignGrammeme_Tags]

theorem foldl_assignGrammeme_PartOfSpeech (gs : List Str) :
    ∀ p : Parsed, (gs.foldl assignGrammeme p).PartOfSpeech = p.PartOfSpeech := by
  induction gs with
  | nil => intro p; rfl
  | cons g gs ih =>
    intro p
    rw [List.foldl_cons, ih, assignGrammeme_PartOfSpeech]

theorem newParsed_Word (word lemm tagString : Str) : (newParsed word lemm tagString).Word = word := by
  unfold newParsed
  rw [foldl_assignGrammeme_Word]

theorem newParsed_Lemma (word lemm tagString : Str) :
    (newParsed word lemm tagString).Lemma = lemm := by
  unfold newParsed
  rw [foldl_assignGrammeme_Lemma]

theorem newParsed_Tags (word lemm tagString : Str) :
    (newParsed word lemm tagString).Tags = tagString := by
  unfold newParsed
  rw [foldl_assignGrammeme_Tags]

theorem newParsed_PartOfSpeech (word lemm tagString : Str) :
    (newParsed word lemm tagString).PartOfSpeech =
      (if (splitOnComma tagString).headD [] ∈ posTags then (splitOnComma tagString).headD []
       else []) := by
  unfold newParsed
  rw [foldl_assignGrammeme_PartOfSpeech]
  cases h : splitOnComma tagString with
  | nil => simp
  | cons g gs => simp

/-- Overwrite only the surface-word field of a parse record. -/
def setWord (p : Parsed) (w : Str) : Parsed := { p with Word := w }

theorem firstCat_setWord (p : Parsed) (g w : Str) :
    firstCat (setWord p w) g = firstCat p g := rfl

theorem assignGrammeme_setWord (p : Parsed) (g w : Str) :
    assignGrammeme (setWord p w) g = setWord (assignGrammeme p g) w := by
  unfold assignGrammeme
  rw [firstCat_setWord]
  cases hc : firstCat p g <;> rfl

theorem foldl_assignGrammeme_setWord (gs : List Str) :
    ∀ (p : Parsed) (w : Str),
      gs.foldl assignGrammeme (setWord p w) = setWord (gs.foldl assignGrammeme p) w := by
  induction gs with
  | nil => intro p w; rfl
  | cons g gs ih =>
    intro p w
    rw [List.foldl_cons, assignGrammeme_setWord, ih, List.foldl_cons]

theorem newParsed_setWord (w w' lemm tagString : Str) :
    newParsed w' lemm tagString = setWord (newParsed w lemm tagString) w' := by
  unfold newParsed
  rw [← foldl_assignGrammeme_setWord]
  rfl

/- Case-folding laws, restricted to the alphabet on which the case-mapping
model is exact. -/

/-- Code points on which `runeToLower`/`runeToUpper` agree with Go's real
`unicode` tables: ASCII and the Russian Cyrillic letters (А..Я, а..я, Ё, ё).
Outside this alphabet Go has further case pairs (Turkish dotless ı, µ, ſ,
accented Latin, Greek, …) that the model treats as caseless, so every
case-insensitivity statement below is restricted to these code points —
over full Unicode, `ToLower(ToUpper(c))` can differ from `ToLower(c)`
(e.g. ı → I → i), and the corresponding unrestricted law is false of Go. -/
def modelledRune (c : Nat) : Prop :=
  c < 128 ∨ (1040 ≤ c ∧ c ≤ 1103) ∨ c = 1025 ∨ c = 1105

instance (c : Nat) : Decidable (modelledRune c) := by
  unfold modelledRune
  exact inferInstanceAs (Decidable (_ ∨ _))

theorem runeToLower_runeToUpper_of (c : Nat) (h : modelledRune c) :
    runeToLower (runeToUpper c) = runeToLower c := by
  unfold modelledRune at h
  unfold runeToLower runeToUpper
  split_ifs <;> omega

theorem runeToLower_idem_of (c : Nat) (h : modelledRune c) :
    runeToLower (runeToLower c) = runeToLower c := by
  unfold modelledRune at h
  unfold runeToLower
  split_ifs <;> omega

theorem strToLower_strToUpper_of (s : Str) (h : ∀ c ∈ s, modelledRune c) :
    strToLower (strToUpper s) = strToLower s := by
  unfold strToLower strToUpper
  rw [List.map_map]
  exact List.map_congr_left fun c hc => runeToLower_runeToUpper_of c (h c hc)

theorem strToLower_idem_of (s : Str) (h : ∀ c ∈ s, modelledRune c) :
    strToLower (strToLower s) = strToLower s := by
  unfold strToLower
  rw [List.map_map]
  exact List.map_congr_left fun c hc => runeToLower_idem_of c (h c hc)

/- Case-insensitivity of `Parse` up to the stored surface word. -/

theorem setWord_setWord (p : Parsed) (w1 w2 : Str) : setWord (setWord p w1) w2 = setWord p w2 := rfl

theorem Parse_map_setWord (a : MorphAnalyzer) (w w' : Str) (h : strToLower w' = strToLower w) :
    (Parse a w').map (fun p => setWord p []) = (Parse a w).map (fun p => setWord p []) := by
  unfold Parse
  rw [h]
  cases hwalk : walkFrom a.nodes a.edges 0 (strToLower w) with
  | none => simp only [hwalk]
  | some idx =>
    simp only [hwalk]
    by_cases hfin : (a.nodes.getD idx default).IsFinal = true
    · rw [if_pos hfin, if_pos hfin, List.map_map, List.map_map]
      apply List.map_congr_left
      intro info _
      show setWord (newParsed w' _ _) [] = setWord (newParsed w _ _) []
      rw [newParsed_setWord w w', setWord_setWord]
    · rw [if_neg hfin, if_neg hfin]

/- Facts about `ParsePredicted` shared by several claims. -/

/-- Failure condition of the analogical substitution in `ParsePredicted`, in
the order the source checks it: empty template form list, out-of-range
`FormIdx`, template word shorter than the matched suffix, template word not
ending in the common suffix, or template lemma not starting with the
template-word stem. -/
def fallbackSubstitution (a : MorphAnalyzer) (w : Str) (best : PredictionCandidate) : Prop :=
  let lowerWord := strToLower w
  let allForms := getFormsByParadigmID a best.PredictInfo.ParadigmID
  let wordOfTemplate := allForms.getD best.PredictInfo.FormIdx []
  let lemmaOfTemplate :=
    a.LemmaPool.getD ((assocLookup a.paradigmToLemmaID best.PredictInfo.ParadigmID).getD 0) []
  let commonSuffix := lowerWord.drop (lowerWord.length - best.SuffixLen)
  allForms.length = 0 ∨ allForms.length ≤ best.PredictInfo.FormIdx ∨
    wordOfTemplate.length < best.SuffixLen ∨ hasSuffix wordOfTemplate commonSuffix = false ∨
    startsWith lemmaOfTemplate (trimSuffix wordOfTemplate commonSuffix) = false

instance (a : MorphAnalyzer) (w : Str) (best : PredictionCandidate) :
    Decidable (fallbackSubstitution a w best) := by
  unfold fallbackSubstitution
  exact inferInstanceAs (Decidable (_ ∨ _))

/-- C3 (amended): whenever `findBestPrediction` yields a winning rule but the
analogical substitution is unsafe (empty template form list, out-of-range
`FormIdx`, template word shorter than the winning suffix, template word not
ending with the common suffix, or template lemma not starting with the
template stem), `ParsePredicted` returns exactly one parse whose lemma is
the lower-cased input word (not the verbatim input). -/
theorem C3_parse_predicted_fallback_lower (a : MorphAnalyzer) (w : Str) (best : PredictionCandidate)
    (h : findBestPrediction a (strToLower w) = some best)
    (hfall : fallbackSubstitution a w best) :
    ParsePredicted a w =
      [newParsed w (strToLower w) (a.tagsPool.getD best.PredictInfo.TagsID [])] := by
  unfold ParsePredicted
  simp only [h]
  unfold fallbackSubstitution at hfall
  congr 1
  split_ifs with h1 h2 h3 h4 <;>
    first
    | rfl
    | (exfalso
       rcases hfall with hu | hu | hu | hu | hu <;> simp_all <;> omega)

/-- C9: whenever `findBestPrediction` yields a winning rule, `ParsePredicted`
returns exactly one parse whose tag string is `TagsPool[TagsID]` of that rule
— in every branch, fallback or not: the tag string never falls back. -/
theorem C9_parse_predicted_tags (a : MorphAnalyzer) (w : Str) (best : PredictionCandidate)
    (h : findBestPrediction a (strToLower w) = some best) :
    (ParsePredicted a w).length = 1 ∧
      (ParsePredicted a w).map Parsed.Tags = [a.tagsPool.getD best.PredictInfo.TagsID []] := by
  unfold ParsePredicted
  simp only [h]
  refine ⟨rfl, ?_⟩
  rw [List.map_cons, List.map_nil, newParsed_Tags]

/- Association-map and fold invariants. -/

theorem assocSet_keys {α β : Type} [DecidableEq α] (l : List (α × β)) (k : α) (v : β) :
    (assocSet l k v).map Prod.fst =
      if k ∈ l.map Prod.fst then l.map Prod.fst else l.map Prod.fst ++ [k] := by
  induction l with
  | nil => simp [assocSet]
  | cons hd tl ih =>
    obtain ⟨k0, v0⟩ := hd
    by_cases hk : k = k0
    · subst hk
      simp [assocSet]
    · simp only [assocSet, if_neg hk, List.map_cons]
      rw [ih]
      by_cases hmem : k ∈ tl.map Prod.fst
      · simp [hmem, hk]
      · simp [hmem, hk]

theorem assocSet_mem_keys_self {α β : Type} [DecidableEq α] (l : List (α × β)) (k : α) (v : β) :
    k ∈ (assocSet l k v).map Prod.fst := by
  rw [assocSet_keys]
  by_cases hmem : k ∈ l.map Prod.fst
  · rwa [if_pos hmem]
  · rw [if_neg hmem]
    simp

theorem assocSet_keys_incl {α β : Type} [DecidableEq α] (l : List (α × β)) (k k' : α) (v : β)
    (h : k' ∈ l.map Prod.fst) : k' ∈ (assocSet l k v).map Prod.fst := by
  rw [assocSet_keys]
  by_cases hmem : k ∈ l.map Prod.fst
  · rwa [if_pos hmem]
  · rw [if_neg hmem]
    exact List.mem_append_left _ h

theorem assocLookup_isSome_iff {α β : Type} [DecidableEq α] (l : List (α × β)) (k : α) :
    (assocLookup l k).isSome = true ↔ k ∈ l.map Prod.fst := by
  induction l with
  | nil => simp [assocLookup]
  | cons hd tl ih =>
    obtain ⟨k0, v0⟩ := hd
    by_cases hk : k = k0
    · subst hk
      simp [assocLookup]
    · simp [assocLookup, if_neg hk, hk, ih]

theorem foldl_invariant {α β : Type} (P : β → Prop) (step : β → α → β)
    (hstep : ∀ b x, P b → P (step b x)) : ∀ (l : List α) (b : β), P b → P (l.foldl step b) := by
  intro l
  induction l with
  | nil => intro b hb; exact hb
  | cons x xs ih => intro b hb; exact ih _ (hstep b x hb)

/- Reachability facts about the depth-first form generator. -/

theorem findChildGeneral_mem (nodeIndex char : Nat) (nodes : List FlatNode)
    (edges : List FlatEdge) (child : Nat)
    (h : findChildGeneral nodeIndex char nodes edges = some child) :
    ∃ e ∈ edgeWindow edges (nodes.getD nodeIndex default), e.Char = char ∧ e.NodeID = child := by
  rw [findChildGeneral_eq] at h
  by_cases h0 : (nodes.getD nodeIndex default).EdgesLen = 0
  · rw [if_pos h0] at h
    exact absurd h (by simp)
  · rw [if_neg h0] at h
    simp only [] at h
    by_cases hc :
        sortSearch (edgeWindow edges (nodes.getD nodeIndex default)).length
            (fun k => decide (char ≤ ((edgeWindow edges (nodes.getD nodeIndex default)).getD k default).Char)) <
          (edgeWindow edges (nodes.getD nodeIndex default)).length ∧
        ((edgeWindow edges (nodes.getD nodeIndex default)).getD
            (sortSearch (edgeWindow edges (nodes.getD nodeIndex default)).length
              (fun k => decide (char ≤ ((edgeWindow edges (nodes.getD nodeIndex default)).getD k default).Char)))
            default).Char = char
    · rw [if_pos hc] at h
      refine ⟨_, ?_, hc.2, by injection h⟩
      rw [List.getD_eq_getElem _ default hc.1]
      exact List.getElem_mem hc.1
    · rw [if_neg hc] at h
      exact absurd h (by simp)

theorem dfsFindWord_keys_mono (a : MorphAnalyzer) (stemChars : Str) (targetID : Nat) :
    ∀ (fuel start : Nat) (suffix : Str) (results : List (Str × Nat)) (k : Str),
      k ∈ results.map Prod.fst →
      k ∈ (dfsFindWord a stemChars targetID fuel start suffix results).map Prod.fst := by
  intro fuel
  induction fuel with
  | zero => intro start suffix results k hk; exact hk
  | succ fuel ih =>
    intro start suffix results k hk
    simp only [dfsFindWord]
    apply foldl_invariant (fun r : List (Str × Nat) => k ∈ r.map Prod.fst) _
      (fun r edge hr => ih _ _ _ _ hr)
    by_cases hfin : (a.nodes.getD start default).IsFinal = true
    · rw [if_pos hfin]
      apply foldl_invariant (fun r : List (Str × Nat) => k ∈ r.map Prod.fst) _ _ _ _ hk
      intro r info hr
      by_cases hpid : info.ParadigmID = targetID
      · rw [if_pos hpid]
        exact assocSet_keys_incl _ _ _ _ hr
      · rwa [if_neg hpid]
    · rwa [if_neg hfin]

theorem dfsFindWord_reach (a : MorphAnalyzer) (stemChars : Str) (targetID : Nat) :
    ∀ (rest : Str) (fuel start : Nat) (suffix : Str) (results : List (Str × Nat)) (idx : Nat),
      walkFrom a.nodes a.edges start rest = some idx →
      rest.length < fuel →
      (a.nodes.getD idx default).IsFinal = true →
      (∃ info ∈ payloadWindow a.payloads (a.nodes.getD idx default), info.ParadigmID = targetID) →
      (stemChars ++ suffix ++ rest) ∈
        (dfsFindWord a stemChars targetID fuel start suffix results).map Prod.fst := by
  intro rest
  induction rest with
  | nil =>
    intro fuel start suffix results idx hwalk hfuel hfinal hinfo
    have hidx : start = idx := by simpa [walkFrom] using hwalk
    subst hidx
    cases fuel with
    | zero => omega
    | succ fuel =>
      simp only [dfsFindWord]
      apply foldl_invariant (fun r : List (Str × Nat) => stemChars ++ suffix ++ [] ∈ r.map Prod.fst) _
        (fun r edge hr => dfsFindWord_keys_mono a stemChars targetID fuel _ _ _ _ hr)
      rw [if_pos hfinal]
      obtain ⟨info, hmem, hpid⟩ := hinfo
      obtain ⟨w1, w2, hsplit⟩ := List.append_of_mem hmem
      rw [hsplit, List.foldl_append, List.foldl_cons, if_pos hpid]
      apply foldl_invariant (fun r : List (Str × Nat) => stemChars ++ suffix ++ [] ∈ r.map Prod.fst)
      · intro r info' hr
        by_cases hpid' : info'.ParadigmID = targetID
        · rw [if_pos hpid']
          exact assocSet_keys_incl _ _ _ _ hr
        · rwa [if_neg hpid']
      · rw [List.append_nil]
        exact assocSet_mem_keys_self _ _ _
  | cons c rest ih =>
    intro fuel start suffix results idx hwalk hfuel hfinal hinfo
    cases hfc : findChildGeneral start c a.nodes a.edges with
    | none => simp [walkFrom, hfc] at hwalk
    | some child =>
      simp only [walkFrom, hfc] at hwalk
      cases fuel with
      | zero => omega
      | succ fuel =>
        simp only [dfsFindWord]
        obtain ⟨e, hemem, hechar, henode⟩ := findChildGeneral_mem start c a.nodes a.edges child hfc
        obtain ⟨w1, w2, hsplit⟩ := List.append_of_mem hemem
        rw [hsplit, List.foldl_append, List.foldl_cons]
        apply foldl_invariant (fun r : List (Str × Nat) => stemChars ++ suffix ++ (c :: rest) ∈ r.map Prod.fst) _
          (fun r edge hr => dfsFindWord_keys_mono a stemChars targetID fuel _ _ _ _ hr)
        have hkey : stemChars ++ suffix ++ (c :: rest) = stemChars ++ (suffix ++ [e.Char]) ++ rest := by
          rw [hechar]
          simp
        rw [hkey]
        refine ih fuel e.NodeID (suffix ++ [e.Char]) _ idx ?_ (by simpa using hfuel) hfinal hinfo
        rw [henode]
        exact hwalk

/- Structure of `inflectResults`: key uniqueness and record words. -/

/-- Well-formedness of the `finalResults` map of `Inflect`: keys are unique
and each stored record's surface word is its key. -/
def GoodFR (fr : List (Str × Parsed)) : Prop :=
  (fr.map Prod.fst).Nodup ∧ ∀ kv ∈ fr, kv.2.Word = kv.1

theorem inflectFormStep_good (lem : Str) (tagsPool : List Str) (fr : List (Str × Parsed))
    (fv : Str × Nat) (h : GoodFR fr) : GoodFR (inflectFormStep lem tagsPool fr fv) := by
  unfold inflectFormStep
  by_cases hs : (assocLookup fr fv.1).isSome = true
  · rwa [if_pos hs]
  · rw [if_neg hs]
    have hnotmem : fv.1 ∉ fr.map Prod.fst := by
      rw [← assocLookup_isSome_iff fr fv.1]
      exact hs
    constructor
    · rw [List.map_append]
      simp [List.nodup_append, h.1, hnotmem]
    · intro kv hkv
      rcases List.mem_append.mp hkv with hkv | hkv
      · exact h.2 kv hkv
      · simp only [List.mem_singleton] at hkv
        subst hkv
        exact newParsed_Word _ _ _

theorem inflectStemStep_good (a : MorphAnalyzer) (pID : Nat) (lem : Str)
    (fr : List (Str × Parsed)) (pInfo : ParadigmInfo) (h : GoodFR fr) :
    GoodFR (inflectStemStep a pID lem fr pInfo) :=
  foldl_invariant GoodFR _ (fun b x hb => inflectFormStep_good lem a.tagsPool b x hb) _ fr h

theorem inflectParadigmStep_good (a : MorphAnalyzer) (fr : List (Str × Parsed))
    (pl : Nat × Str) (h : GoodFR fr) : GoodFR (inflectParadigmStep a fr pl) := by
  unfold inflectParadigmStep
  cases assocLookup a.paradigms pl.1 with
  | none => exact h
  | some slice =>
    exact foldl_invariant GoodFR _ (fun b x hb => inflectStemStep_good a pl.1 pl.2 b x hb) _ fr h

theorem inflectResults_good (a : MorphAnalyzer) (word : Str) : GoodFR (inflectResults a word) :=
  foldl_invariant GoodFR _ (fun b x hb => inflectParadigmStep_good a b x hb) _ []
    ⟨List.nodup_nil, by intro kv h; cases h⟩

/- Non-emptiness of `inflectResults` under the paradigm-coverage invariant. -/

theorem inflectFormStep_ne_nil (lem : Str) (tagsPool : List Str) (fr : List (Str × Parsed))
    (fv : Str × Nat) (h : fr ≠ []) : inflectFormStep lem tagsPool fr fv ≠ [] := by
  unfold inflectFormStep
  by_cases hs : (assocLookup fr fv.1).isSome = true
  · rwa [if_pos hs]
  · rw [if_neg hs]
    simp

theorem foldl_formStep_ne_nil (lem : Str) (tagsPool : List Str) (gf : List (Str × Nat))
    (fr : List (Str × Parsed)) (h : gf ≠ []) :
    gf.foldl (inflectFormStep lem tagsPool) fr ≠ [] := by
  cases gf with
  | nil => exact absurd rfl h
  | cons g gs =>
    rw [List.foldl_cons]
    apply foldl_invariant (fun b : List (Str × Parsed) => b ≠ []) _
      (fun b x hb => inflectFormStep_ne_nil lem tagsPool b x hb)
    unfold inflectFormStep
    by_cases hs : (assocLookup fr g.1).isSome = true
    · rw [if_pos hs]
      intro hnil
      subst hnil
      simp [assocLookup] at hs
    · rw [if_neg hs]
      simp

theorem inflectStemStep_ne_nil (a : MorphAnalyzer) (pID : Nat) (lem : Str)
    (fr : List (Str × Parsed)) (pInfo : ParadigmInfo) (h : fr ≠ []) :
    inflectStemStep a pID lem fr pInfo ≠ [] :=
  foldl_invariant (fun b : List (Str × Parsed) => b ≠ []) _
    (fun b x hb => inflectFormStep_ne_nil lem a.tagsPool b x hb) _ fr h

theorem inflectParadigmStep_ne_nil (a : MorphAnalyzer) (fr : List (Str × Parsed))
    (pl : Nat × Str) (h : fr ≠ []) : inflectParadigmStep a fr pl ≠ [] := by
  unfold inflectParadigmStep
  cases assocLookup a.paradigms pl.1 with
  | none => exact h
  | some slice =>
    exact foldl_invariant (fun b : List (Str × Parsed) => b ≠ []) _
      (fun b x hb => inflectStemStep_ne_nil a pl.1 pl.2 b x hb) _ fr h

theorem inflectParadigms_keys (a : MorphAnalyzer) (word : Str) (idx : Nat)
    (hwalk : walkFrom a.nodes a.edges 0 (strToLower word) = some idx) :
    ∀ info ∈ payloadWindow a.payloads (a.nodes.getD idx default),
      info.ParadigmID ∈ (inflectParadigms a word).map Prod.fst := by
  intro info hmem
  unfold inflectParadigms
  rw [hwalk]
  obtain ⟨w1, w2, hsplit⟩ := List.append_of_mem hmem
  simp only []
  rw [hsplit, List.foldl_append, List.foldl_cons]
  apply foldl_invariant (fun m : List (Nat × Str) => info.ParadigmID ∈ m.map Prod.fst) _
    (fun m info' hm => assocSet_keys_incl _ _ _ _ hm)
  exact assocSet_mem_keys_self _ _ _

/-- Paradigm-coverage invariant of the data model (§3 of the specification):
some payload entry at the word's terminal node belongs to a paradigm whose
stem list contains a stem that is a leading segment of the (lowered) word and
whose anchor node reaches the terminal node along the remaining characters;
the remaining path is shorter than the node count (automatic for an acyclic
graph, and exactly the recursion budget `dfsGenerate` is given here). -/
def InflectCoverage (a : MorphAnalyzer) (word : Str) : Prop :=
  match walkFrom a.nodes a.edges 0 (strToLower word) with
  | none => False
  | some idx =>
    ∃ info ∈ payloadWindow a.payloads (a.nodes.getD idx default),
      ∃ pInfo ∈ (assocLookup a.paradigms info.ParadigmID).getD [],
        startsWith (strToLower word) pInfo.Stem = true ∧
        walkFrom a.nodes a.edges pInfo.NodeID
          ((strToLower word).drop pInfo.Stem.length) = some idx ∧
        (strToLower word).length - pInfo.Stem.length < a.nodes.length

instance (a : MorphAnalyzer) (word : Str) : Decidable (InflectCoverage a word) := by
  unfold InflectCoverage
  cases walkFrom a.nodes a.edges 0 (strToLower word) with
  | none => exact inferInstanceAs (Decidable False)
  | some idx => exact inferInstanceAs (Decidable (∃ _ ∈ _, _))

theorem Parse_ne_nil_extract (a : MorphAnalyzer) (word : Str) (hw : Parse a word ≠ []) :
    ∃ idx, walkFrom a.nodes a.edges 0 (strToLower word) = some idx ∧
      (a.nodes.getD idx default).IsFinal = true := by
  unfold Parse at hw
  cases hwalk : walkFrom a.nodes a.edges 0 (strToLower word) with
  | none => simp [hwalk] at hw
  | some idx =>
    refine ⟨idx, rfl, ?_⟩
    by_cases hfin : (a.nodes.getD idx default).IsFinal = true
    · exact hfin
    · simp only [hwalk] at hw
      rw [if_neg hfin] at hw
      exact absurd rfl hw

theorem inflectParadigmStep_eq_some (a : MorphAnalyzer) (fr : List (Str × Parsed))
    (pl : Nat × Str) (slice : List ParadigmInfo)
    (h : assocLookup a.paradigms pl.1 = some slice) :
    inflectParadigmStep a fr pl = slice.foldl (inflectStemStep a pl.1 pl.2) fr := by
  unfold inflectParadigmStep
  rw [h]

theorem inflectResults_ne_nil (a : MorphAnalyzer) (word : Str)
    (hw : Parse a word ≠ []) (hcov : InflectCoverage a word) :
    inflectResults a word ≠ [] := by
  obtain ⟨idx, hwalk, hfinal⟩ := Parse_ne_nil_extract a word hw
  unfold InflectCoverage at hcov
  rw [hwalk] at hcov
  obtain ⟨info, hinfomem, pInfo, hpmem, hstem, hpwalk, hlen⟩ := hcov
  have hslice : ∃ slice, assocLookup a.paradigms info.ParadigmID = some slice ∧ pInfo ∈ slice := by
    cases hl : assocLookup a.paradigms info.ParadigmID with
    | none =>
      rw [hl] at hpmem
      cases hpmem
    | some slice =>
      rw [hl] at hpmem
      exact ⟨slice, rfl, hpmem⟩
  obtain ⟨slice, hlook, hpslice⟩ := hslice
  have hdfs : dfsGenerate a pInfo.NodeID pInfo.Stem info.ParadigmID [] ≠ [] := by
    intro hnil
    have := dfsFindWord_reach a pInfo.Stem info.ParadigmID
      ((strToLower word).drop pInfo.Stem.length) a.nodes.length pInfo.NodeID [] [] idx
      hpwalk (by simpa using hlen) hfinal ⟨info, hinfomem, rfl⟩
    rw [show dfsFindWord a pInfo.Stem info.ParadigmID a.nodes.length pInfo.NodeID [] [] =
        dfsGenerate a pInfo.NodeID pInfo.Stem info.ParadigmID [] from rfl, hnil] at this
    cases this
  have hkey := inflectParadigms_keys a word idx hwalk info hinfomem
  obtain ⟨pl, hplmem, hplfst⟩ := List.mem_map.mp hkey
  obtain ⟨l1, l2, hlsplit⟩ := List.append_of_mem hplmem
  unfold inflectResults
  rw [hlsplit, List.foldl_append, List.foldl_cons]
  apply foldl_invariant (fun b : List (Str × Parsed) => b ≠ []) _
    (fun b x hb => inflectParadigmStep_ne_nil a b x hb)
  have hlook' : assocLookup a.paradigms pl.1 = some slice := by
    rw [hplfst]
    exact hlook
  obtain ⟨s1, s2, hssplit⟩ := List.append_of_mem hpslice
  rw [inflectParadigmStep_eq_some a _ pl slice hlook', hssplit, List.foldl_append, List.foldl_cons]
  apply foldl_invariant (fun b : List (Str × Parsed) => b ≠ []) _
    (fun b x hb => inflectStemStep_ne_nil a pl.1 pl.2 b x hb)
  unfold inflectStemStep
  rw [hplfst]
  exact foldl_formStep_ne_nil pl.2 a.tagsPool _ _ hdfs

/- Sortedness and duplicate-freeness of the `Inflect` output. -/

theorem inflectResults_words (a : MorphAnalyzer) (word : Str) :
    ((inflectResults a word).map Prod.snd).map Parsed.Word = (inflectResults a word).map Prod.fst := by
  rw [List.map_map]
  exact List.map_congr_left fun kv hkv => (inflectResults_good a word).2 kv hkv

theorem inflect_snd_pairwise_ne (a : MorphAnalyzer) (word : Str) :
    List.Pairwise (fun p q : Parsed => p.Word ≠ q.Word) ((inflectResults a word).map Prod.snd) := by
  have hnodup : (((inflectResults a word).map Prod.snd).map Parsed.Word).Nodup := by
    rw [inflectResults_words]
    exact (inflectResults_good a word).1
  have := List.pairwise_map.mp hnodup
  exact this

theorem pairwise_ne_perm {l l' : List Parsed} (hperm : l.Perm l')
    (h : List.Pairwise (fun p q : Parsed => p.Word ≠ q.Word) l') :
    List.Pairwise (fun p q : Parsed => p.Word ≠ q.Word) l :=
  (hperm.pairwise_iff (fun hxy => Ne.symm hxy)).mpr h

/-- C1 (amended): de-duplication of emitted forms in `Inflect` is global over
the whole result, not merely per paradigm: the returned records carry
pairwise distinct surface forms, so a surface form generated by two
different paradigms yields a single record (from whichever paradigm the map
iteration processed first), never one record per paradigm. -/
theorem C1_inflect_global_dedup (a : MorphAnalyzer) (word : Str) :
    List.Pairwise (fun p q : Parsed => p.Word ≠ q.Word) (Inflect a word) := by
  unfold Inflect
  by_cases hp : (Parse a word).isEmpty = true
  · rw [if_pos hp]
    exact List.Pairwise.nil
  · rw [if_neg hp]
    by_cases hr : (inflectResults a word).isEmpty = true
    · rw [if_pos hr]
      exact List.Pairwise.nil
    · rw [if_neg hr]
      exact pairwise_ne_perm (List.perm_insertionSort parsedLE _) (inflect_snd_pairwise_ne a word)

/-- C8: for every word present in the dictionary (`Parse` non-empty), on an
analyzer satisfying the paradigm-coverage invariant of §3, `Inflect` returns
a non-empty list sorted strictly ascending by surface form, so no two
elements share a surface form. -/
theorem C8_inflect_nonempty_sorted (a : MorphAnalyzer) (word : Str)
    (hw : Parse a word ≠ []) (hcov : InflectCoverage a word) :
    Inflect a word ≠ [] ∧
      List.Pairwise (fun p q : Parsed => ltb p.Word q.Word = true) (Inflect a word) := by
  have hres := inflectResults_ne_nil a word hw hcov
  have hInf : Inflect a word =
      List.insertionSort parsedLE ((inflectResults a word).map Prod.snd) := by
    unfold Inflect
    rw [if_neg (by simpa using hw), if_neg (by simpa using hres)]
  constructor
  · rw [hInf]
    intro hnil
    have hlen := (List.perm_insertionSort parsedLE ((inflectResults a word).map Prod.snd)).length_eq
    rw [hnil] at hlen
    simp only [List.length_nil, List.length_map] at hlen
    exact hres (List.eq_nil_of_length_eq_zero hlen.symm)
  · rw [hInf]
    have hsorted : List.Pairwise parsedLE
        (List.insertionSort parsedLE ((inflectResults a word).map Prod.snd)) :=
      List.sorted_insertionSort parsedLE _
    have hne : List.Pairwise (fun p q : Parsed => p.Word ≠ q.Word)
        (List.insertionSort parsedLE ((inflectResults a word).map Prod.snd)) :=
      pairwise_ne_perm (List.perm_insertionSort parsedLE _) (inflect_snd_pairwise_ne a word)
    exact (hsorted.and hne).imp fun h => strict_of_le_of_ne h.1 h.2

/- Specification of `findBestPrediction`. -/

theorem probeSuffix_mem (a : MorphAnalyzer) (word : Str) (k : Nat) (c : PredictionCandidate) :
    c ∈ probeSuffix a word k ↔
      k ≤ word.length ∧ c.SuffixLen = k ∧
        ∃ idx, walkFrom a.predictNodes a.predictEdges 0 (word.drop (word.length - k)) = some idx ∧
          (a.predictNodes.getD idx default).IsFinal = true ∧
          c.PredictInfo ∈ payloadWindow a.predictPayloads (a.predictNodes.getD idx default) := by
  unfold probeSuffix
  by_cases hk : k > word.length
  · rw [if_pos hk]
    simp only [List.not_mem_nil, false_iff]
    intro h
    omega
  · rw [if_neg hk]
    cases hw : walkFrom a.predictNodes a.predictEdges 0 (word.drop (word.length - k)) with
    | none => simp [hw]
    | some idx =>
      simp only [hw]
      by_cases hfin : (a.predictNodes.getD idx default).IsFinal = true
      · rw [if_pos hfin]
        constructor
        · intro hc
          obtain ⟨p, hpmem, hpc⟩ := List.mem_map.mp hc
          subst hpc
          exact ⟨by omega, rfl, idx, rfl, hfin, hpmem⟩
        · rintro ⟨hkle, hsl, idx', hw', hfin', hpmem⟩
          have hidx : idx' = idx := (Option.some.inj hw').symm
          subst hidx
          apply List.mem_map.mpr
          refine ⟨c.PredictInfo, hpmem, ?_⟩
          cases c
          simp only at hsl
          rw [hsl]
      · rw [if_neg hfin]
        simp only [List.not_mem_nil, false_iff]
        rintro ⟨_, _, idx', hw', hfin', _⟩
        injection hw' with hidx
        rw [← hidx] at hfin'
        exact hfin hfin'

theorem predictCandidates_mem (a : MorphAnalyzer) (word : Str) (c : PredictionCandidate) :
    c ∈ predictCandidates a word ↔
      1 ≤ c.SuffixLen ∧ c.SuffixLen ≤ 5 ∧ c.SuffixLen ≤ word.length ∧
        ∃ idx,
          walkFrom a.predictNodes a.predictEdges 0
              (word.drop (word.length - c.SuffixLen)) = some idx ∧
          (a.predictNodes.getD idx default).IsFinal = true ∧
          c.PredictInfo ∈ payloadWindow a.predictPayloads (a.predictNodes.getD idx default) := by
  unfold predictCandidates
  rw [List.mem_flatMap]
  constructor
  · rintro ⟨k, hkmem, hc⟩
    obtain ⟨hkle, hsl, hrest⟩ := (probeSuffix_mem a word k c).mp hc
    have hk15 : 1 ≤ k ∧ k ≤ 5 := by
      simp only [List.mem_cons, List.not_mem_nil, or_false] at hkmem
      omega
    subst hsl
    exact ⟨hk15.1, hk15.2, hkle, hrest⟩
  · rintro ⟨h1, h5, hle, hrest⟩
    refine ⟨c.SuffixLen, ?_, (probeSuffix_mem a word c.SuffixLen c).mpr ⟨hle, rfl, hrest⟩⟩
    simp only [List.mem_cons, List.not_mem_nil, or_false]
    omega

theorem findBestPrediction_none_iff (a : MorphAnalyzer) (word : Str) :
    findBestPrediction a word = none ↔ predictCandidates a word = [] := by
  unfold findBestPrediction
  by_cases he : (predictCandidates a word).isEmpty = true
  · rw [if_pos he]
    simp only [true_iff]
    exact List.isEmpty_iff.mp he
  · rw [if_neg he]
    have hne : predictCandidates a word ≠ [] := by
      intro hnil
      exact he (by simp [hnil])
    constructor
    · intro hh
      cases hs : List.insertionSort candLE (predictCandidates a word) with
      | nil =>
        have := (List.perm_insertionSort candLE (predictCandidates a word)).length_eq
        rw [hs] at this
        exact absurd (List.eq_nil_of_length_eq_zero this.symm) hne
      | cons c0 rest =>
        rw [hs] at hh
        exact absurd hh (by simp)
    · intro hnil
      exact absurd hnil hne

/-- C5: `findBestPrediction` probes the prediction DAWG with the word's
suffixes of length 5 down to 1 (skipping lengths above the word length),
collects every `PredictInfo` at each final end node paired with that length
(see `predictCandidates_mem` for the collection law), returns a candidate
maximal under (SuffixLen descending, Frequency descending), and returns
`none` exactly when no probed suffix ends at a final node (given that final
prediction nodes carry a non-empty payload window, the §3 invariant). -/
theorem C5_find_best_prediction_spec (a : MorphAnalyzer) (word : Str)
    (hwf : ∀ node ∈ a.predictNodes, node.IsFinal = true →
      payloadWindow a.predictPayloads node ≠ []) :
    (findBestPrediction a word = none ↔
      ∀ k, 1 ≤ k → k ≤ 5 → k ≤ word.length →
        ∀ idx, walkFrom a.predictNodes a.predictEdges 0 (word.drop (word.length - k)) = some idx →
          (a.predictNodes.getD idx default).IsFinal = false) ∧
    (∀ best, findBestPrediction a word = some best →
      best ∈ predictCandidates a word ∧
        ∀ c ∈ predictCandidates a word, ¬ candLess c best) := by
  constructor
  · rw [findBestPrediction_none_iff]
    constructor
    · intro hnil k h1 h5 hle idx hwalk
      by_contra hfin
      have hfin' : (a.predictNodes.getD idx default).IsFinal = true := by
        cases hf : (a.predictNodes.getD idx default).IsFinal with
        | false => exact absurd hf hfin
        | true => rfl
      have hidxlt : idx < a.predictNodes.length := by
        by_contra hge
        push_neg at hge
        rw [List.getD_eq_default _ _ hge] at hfin'
        simp [default] at hfin'
      have hnodemem : a.predictNodes.getD idx default ∈ a.predictNodes := by
        rw [List.getD_eq_getElem _ default hidxlt]
        exact List.getElem_mem hidxlt
      have hwindow := hwf _ hnodemem hfin'
      obtain ⟨p, hpmem⟩ := List.exists_mem_of_ne_nil _ hwindow
      have hcand : (⟨p, k⟩ : PredictionCandidate) ∈ predictCandidates a word := by
        apply (predictCandidates_mem a word ⟨p, k⟩).mpr
        exact ⟨h1, h5, hle, idx, hwalk, hfin', hpmem⟩
      rw [hnil] at hcand
      cases hcand
    · intro hall
      apply List.flatMap_eq_nil_iff.mpr
      intro k hkmem
      unfold probeSuffix
      by_cases hk : k > word.length
      · rw [if_pos hk]
      · rw [if_neg hk]
        cases hw : walkFrom a.predictNodes a.predictEdges 0 (word.drop (word.length - k)) with
        | none => simp [hw]
        | some idx =>
          have hk15 : 1 ≤ k ∧ k ≤ 5 := by
            simp only [List.mem_cons, List.not_mem_nil, or_false] at hkmem
            omega
          have hnotfin := hall k hk15.1 hk15.2 (by omega) idx hw
          simp only [hw]
          rw [if_neg (by
            intro hcontra
            rw [hnotfin] at hcontra
            cases hcontra)]
  · intro best hbest
    unfold findBestPrediction at hbest
    by_cases he : (predictCandidates a word).isEmpty = true
    · rw [if_pos he] at hbest
      cases hbest
    · rw [if_neg he] at hbest
      cases hs : List.insertionSort candLE (predictCandidates a word) with
      | nil =>
        rw [hs] at hbest
        cases hbest
      | cons c0 rest =>
        rw [hs] at hbest
        have hc0 : c0 = best := by
          simpa using hbest
        subst hc0
        have hperm := List.perm_insertionSort candLE (predictCandidates a word)
        rw [hs] at hperm
        constructor
        · exact hperm.mem_iff.mp (List.mem_cons_self c0 rest)
        · intro c hc
          have hcmem : c ∈ c0 :: rest := hperm.mem_iff.mpr hc
          have hsorted := List.sorted_insertionSort candLE (predictCandidates a word)
          rw [hs] at hsorted
          rcases List.mem_cons.mp hcmem with hceq | hcrest
          · subst hceq
            unfold candLess
            omega
          · have := (List.pairwise_cons.mp hsorted).1 c hcrest
            exact this

/- Batch pipeline: `ParseList` content. -/

theorem chunkedAux_flatten : ∀ (fuel : Nat) (l : List Str), l.length ≤ fuel →
    (chunkedAux fuel l).flatten = l := by
  intro fuel
  induction fuel with
  | zero =>
    intro l h
    have hl : l = [] := List.eq_nil_of_length_eq_zero (by omega)
    subst hl
    rfl
  | succ fuel ih =>
    intro l h
    by_cases hl : l = []
    · subst hl
      rfl
    · have hpos : 0 < l.length := List.length_pos.mpr hl
      simp only [chunkedAux, if_neg hl, List.flatten_cons]
      rw [ih (l.drop 1000) (by simp only [List.length_drop]; omega)]
      exact List.take_append_drop 1000 l

theorem flatMap_flatten_eq {α β : Type} (cs : List (List α)) (f : α → List β) :
    (cs.map (fun c => c.flatMap f)).flatten = cs.flatten.flatMap f := by
  induction cs with
  | nil => rfl
  | cons c cs ih => simp [List.flatMap_append, ih]

theorem ParseList_eq_sorted_flatMap (a : MorphAnalyzer) (words : List Str) :
    ParseList a words =
      List.insertionSort parsedLE (words.flatMap fun w => (Analyze a w).1) := by
  unfold ParseList chunked1000
  rw [flatMap_flatten_eq, chunkedAux_flatten words.length words (Nat.le_refl _)]

/-- C2 (amended): the multiset of parse records returned by `ParseList`
equals the concatenation, per word, of the parses component of `Analyze` —
i.e. `Parse` when the word is in the dictionary and `ParsePredicted`
otherwise — not of `Parse` alone. -/
theorem C2_parse_list_perm_analyze (a : MorphAnalyzer) (words : List Str) :
    (ParseList a words).Perm (words.flatMap fun w => (Analyze a w).1) := by
  rw [ParseList_eq_sorted_flatMap]
  exact List.perm_insertionSort parsedLE _

/- Loader facts. -/

theorem goSlice_isSome (b : List Nat) (lo hi : Int)
    (h : 0 ≤ lo ∧ lo ≤ hi ∧ hi ≤ (b.length : Int)) :
    goSlice b lo hi = some ((b.take hi.toNat).drop lo.toNat) := if_pos h

/-- C7 (amended): the loader performs no region-length validation and has no
`CorruptLayout` error: whenever the magic is valid and each window
`[offset, offset + count × sizeof(record))` lies inside the file (and the
complex block decodes), `loadInternal` constructs the analyzer regardless of
any mismatch between a region's extent in the file and `count × sizeof`. -/
theorem C7_load_no_layout_validation (file : List Nat) (decode : List Nat → Option ComplexData)
    (cd : ComplexData)
    (hlen : 120 ≤ file.length)
    (hmagic : file.take 4 = [68, 65, 87, 55])
    (hdecode : ∀ b, decode b = some cd)
    (hc : 0 ≤ headerField file 0 ∧ headerField file 0 ≤ headerField file 0 + headerField file 1 ∧
      headerField file 0 + headerField file 1 ≤ (file.length : Int))
    (hn : 0 ≤ headerField file 2 ∧
      headerField file 2 ≤ headerField file 2 + headerField file 3 * (flatNodeSize : Int) ∧
      headerField file 2 + headerField file 3 * (flatNodeSize : Int) ≤ (file.length : Int))
    (he : 0 ≤ headerField file 4 ∧
      headerField file 4 ≤ headerField file 4 + headerField file 5 * (flatEdgeSize : Int) ∧
      headerField file 4 + headerField file 5 * (flatEdgeSize : Int) ≤ (file.length : Int))
    (hp : 0 ≤ headerField file 6 ∧
      headerField file 6 ≤ headerField file 6 + headerField file 7 * (morphInfoSize : Int) ∧
      headerField file 6 + headerField file 7 * (morphInfoSize : Int) ≤ (file.length : Int))
    (hpn : 0 ≤ headerField file 8 ∧
      headerField file 8 ≤ headerField file 8 + headerField file 9 * (flatNodeSize : Int) ∧
      headerField file 8 + headerField file 9 * (flatNodeSize : Int) ≤ (file.length : Int))
    (hpe : 0 ≤ headerField file 10 ∧
      headerField file 10 ≤ headerField file 10 + headerField file 11 * (flatEdgeSize : Int) ∧
      headerField file 10 + headerField file 11 * (flatEdgeSize : Int) ≤ (file.length : Int))
    (hpp : 0 ≤ headerField file 12 ∧
      headerField file 12 ≤ headerField file 12 + headerField file 13 * (predictInfoSize : Int) ∧
      headerField file 12 + headerField file 13 * (predictInfoSize : Int) ≤ (file.length : Int)) :
    ∃ la, loadInternal file decode = Except.ok la := by
  simp only [loadInternal,
    if_neg (show ¬ file.length < headerSize by unfold headerSize; omega),
    if_neg (show ¬ file.take 4 ≠ [68, 65, 87, 55] by simp [hmagic]),
    goSlice_isSome _ _ _ hc, goSlice_isSome _ _ _ hn, goSlice_isSome _ _ _ he,
    goSlice_isSome _ _ _ hp, goSlice_isSome _ _ _ hpn, goSlice_isSome _ _ _ hpe,
    goSlice_isSome _ _ _ hpp, hdecode]
  exact ⟨_, rfl⟩

/- Tagset dispatch characterization. -/

theorem assignGrammeme_skip (p : Parsed) (g : Str) (h : g = p.PartOfSpeech) :
    assignGrammeme p g = p := by
  unfold assignGrammeme firstCat
  rw [if_pos h]

/-- Destination law for one grammeme `g` not equal to the part of speech:
`g` is written into the field of the first category (in the fixed source
order animacy, aspect, case, gender, mood, number, person, tense,
transitivity, voice) whose vocabulary contains it, and into the `OtherTags`
set when none does; exactly one destination is touched. -/
def DispatchSpec (p : Parsed) (g : Str) : Prop :=
    (g ∈ animacyTags → assignGrammeme p g = { p with Animacy := g }) ∧
    (g ∉ animacyTags → g ∈ aspectTags → assignGrammeme p g = { p with Aspect := g }) ∧
    (g ∉ animacyTags → g ∉ aspectTags → g ∈ caseTags →
      assignGrammeme p g = { p with Case := g }) ∧
    (g ∉ animacyTags → g ∉ aspectTags → g ∉ caseTags → g ∈ genderTags →
      assignGrammeme p g = { p with Gender := g }) ∧
    (g ∉ animacyTags → g ∉ aspectTags → g ∉ caseTags → g ∉ genderTags → g ∈ moodTags →
      assignGrammeme p g = { p with Mood := g }) ∧
    (g ∉ animacyTags → g ∉ aspectTags → g ∉ caseTags → g ∉ genderTags → g ∉ moodTags →
      g ∈ numberTags → assignGrammeme p g = { p with Number := g }) ∧
    (g ∉ animacyTags → g ∉ aspectTags → g ∉ caseTags → g ∉ genderTags → g ∉ moodTags →
      g ∉ numberTags → g ∈ personTags → assignGrammeme p g = { p with Person := g }) ∧
    (g ∉ animacyTags → g ∉ aspectTags → g ∉ caseTags → g ∉ genderTags → g ∉ moodTags →
      g ∉ numberTags → g ∉ personTags → g ∈ tenseTags →
      assignGrammeme p g = { p with Tense := g }) ∧
    (g ∉ animacyTags → g ∉ aspectTags → g ∉ caseTags → g ∉ genderTags → g ∉ moodTags →
      g ∉ numberTags → g ∉ personTags → g ∉ tenseTags → g ∈ transTags →
      assignGrammeme p g = { p with Transitivity := g }) ∧
    (g ∉ animacyTags → g ∉ aspectTags → g ∉ caseTags → g ∉ genderTags → g ∉ moodTags →
      g ∉ numberTags → g ∉ personTags → g ∉ tenseTags → g ∉ transTags → g ∈ voiceTags →
      assignGrammeme p g = { p with Voice := g }) ∧
    (g ∉ animacyTags → g ∉ aspectTags → g ∉ caseTags → g ∉ genderTags → g ∉ moodTags →
      g ∉ numberTags → g ∉ personTags → g ∉ tenseTags → g ∉ transTags → g ∉ voiceTags →
      assignGrammeme p g =
        { p with OtherTags := if g ∈ p.OtherTags then p.OtherTags else p.OtherTags ++ [g] })

theorem assignGrammeme_dispatch (p : Parsed) (g : Str) (hne : g ≠ p.PartOfSpeech) :
    DispatchSpec p g := by
  unfold DispatchSpec assignGrammeme firstCat
  rw [if_neg hne]
  refine ⟨?_, ?_, ?_, ?_, ?_, ?_, ?_, ?_, ?_, ?_, ?_⟩ <;>
    (intros; simp_all)

/- Concrete analyzers used by the counterexamples and witnesses. -/

/-- Tiny dictionary analyzer: the words "ab", "ac" and "ad" are stored below
the stem "a" (node 1); paradigm 0 (lemma "ab") generates "ab" and "ac",
paradigm 1 (lemma "ad") generates "ab" and "ad"; the node of "ab" carries one
payload entry per paradigm. -/
def ceA : MorphAnalyzer where
  LemmaPool := [strOf "ab", strOf "ad"]
  tagsPool := [strOf "t0", strOf "t1", strOf "t2", strOf "t3"]
  paradigms := [(0, [{ Stem := strOf "a", NodeID := 1 }]), (1, [{ Stem := strOf "a", NodeID := 1 }])]
  paradigmToLemmaID := [(0, 0), (1, 1)]
  nodes :=
    [{ PayloadIdx := 0, EdgesIdx := 0, PayloadLen := 0, EdgesLen := 1, IsFinal := false },
     { PayloadIdx := 0, EdgesIdx := 1, PayloadLen := 0, EdgesLen := 3, IsFinal := false },
     { PayloadIdx := 0, EdgesIdx := 0, PayloadLen := 2, EdgesLen := 0, IsFinal := true },
     { PayloadIdx := 2, EdgesIdx := 0, PayloadLen := 1, EdgesLen := 0, IsFinal := true },
     { PayloadIdx := 3, EdgesIdx := 0, PayloadLen := 1, EdgesLen := 0, IsFinal := true }]
  edges :=
    [{ Char := 97, NodeID := 1 }, { Char := 98, NodeID := 2 },
     { Char := 99, NodeID := 3 }, { Char := 100, NodeID := 4 }]
  payloads :=
    [{ LemmaID := 0, TagsID := 0, ParadigmID := 0 }, { LemmaID := 1, TagsID := 1, ParadigmID := 1 },
     { LemmaID := 0, TagsID := 2, ParadigmID := 0 }, { LemmaID := 1, TagsID := 3, ParadigmID := 1 }]
  predictNodes := []
  predictEdges := []
  predictPayloads := []

/-- Tiny predictor-only analyzer: the main dictionary holds only the root
node (no edges, no words — every `Parse` walk stops at the root, which Go
indexes without going out of range); the prediction DAWG holds the single
suffix rule "a" with an out-of-range `FormIdx` and a paradigm absent from
the paradigm table. -/
def ceP : MorphAnalyzer where
  LemmaPool := [strOf "x"]
  tagsPool := [strOf "pt"]
  paradigms := []
  paradigmToLemmaID := [(0, 0)]
  nodes := [{ PayloadIdx := 0, EdgesIdx := 0, PayloadLen := 0, EdgesLen := 0, IsFinal := false }]
  edges := []
  payloads := []
  predictNodes :=
    [{ PayloadIdx := 0, EdgesIdx := 0, PayloadLen := 0, EdgesLen := 1, IsFinal := false },
     { PayloadIdx := 0, EdgesIdx := 0, PayloadLen := 1, EdgesLen := 0, IsFinal := true }]
  predictEdges := [{ Char := 97, NodeID := 1 }]
  predictPayloads := [{ Frequency := 7, ParadigmID := 0, FormIdx := 5, TagsID := 0 }]


/-- Little-endian encoding of a small non-negative value as 8 bytes. -/
def i64le (n : Nat) : List Nat :=
  [n % 256, n / 256 % 256, n / 256 ^ 2 % 256, n / 256 ^ 3 % 256,
   n / 256 ^ 4 % 256, n / 256 ^ 5 % 256, n / 256 ^ 6 % 256, n / 256 ^ 7 % 256]

/-- Trivial decoded complex block for the loader scenarios. -/
def cd0 : ComplexData where
  LemmaPool := []
  TagsPool := []
  Paradigms := []
  ParadigmToLemmaID := []

/-- Concrete dictionary file whose magic is valid and whose regions all fit in
the file, but whose Nodes region extent (from `NodesOffset` 120 to
`EdgesOffset` 140, i.e. 20 bytes) differs from `NodesCount × sizeof(FlatNode)`
= 16 bytes. -/
def fileX : List Nat :=
  [68, 65, 87, 55] ++ i64le 120 ++ i64le 0 ++ i64le 120 ++ i64le 1 ++ i64le 140 ++ i64le 0 ++
    i64le 140 ++ i64le 0 ++ i64le 140 ++ i64le 0 ++ i64le 140 ++ i64le 0 ++ i64le 140 ++
    i64le 0 ++ [0, 0, 0, 0] ++ List.replicate 20 7


/- Claim C4 and the remaining claim-level statements, witnesses and
counterexamples. -/

/-- C4 (amended): for words over the analyzer's alphabet (ASCII and Russian
Cyrillic, on which the case model coincides with Go's `unicode` tables),
`Parse` is case-insensitive up to the stored surface word: `Parse(w)`,
`Parse(lower(w))` and `Parse(upper(w))` coincide (even as lists) once the
`Word` field, which stores the verbatim input, is cleared.  The full records
differ on case-changed inputs because `Word` keeps the original spelling,
and over full Unicode even the cleared-`Word` statement fails in Go
(`ToLower(ToUpper('ı')) = 'i' ≠ 'ı'`). -/
theorem C4_parse_case_insensitive_mod_word (a : MorphAnalyzer) (w : Str)
    (halpha : ∀ c ∈ w, modelledRune c) :
    (Parse a (strToLower w)).map (fun p => setWord p []) =
        (Parse a w).map (fun p => setWord p []) ∧
      (Parse a (strToUpper w)).map (fun p => setWord p []) =
        (Parse a w).map (fun p => setWord p []) :=
  ⟨Parse_map_setWord a w (strToLower w) (strToLower_idem_of w halpha),
   Parse_map_setWord a w (strToUpper w) (strToLower_strToUpper_of w halpha)⟩

/-- C4 witness: the cleared-`Word` agreement of the three spellings of the
concrete dictionary word "ab". -/
theorem C4_witness :
    (Parse ceA (strToLower (strOf "ab"))).map (fun p => setWord p []) =
        (Parse ceA (strOf "ab")).map (fun p => setWord p []) ∧
      (Parse ceA (strToUpper (strOf "ab"))).map (fun p => setWord p []) =
        (Parse ceA (strOf "ab")).map (fun p => setWord p []) :=
  C4_parse_case_insensitive_mod_word ceA (strOf "ab") (by decide)

/-- C4 counterexample: the dictionary word "ab" parses (twice), but the parse
records of the upper-cased input are not a permutation of those of the
lower-cased input, because the surface-word field stores the verbatim
input. -/
theorem C4_counterexample :
    (Parse ceA (strOf "ab")).length = 2 ∧
      ¬ (Parse ceA (strToUpper (strOf "ab"))).Perm (Parse ceA (strOf "ab")) := by decide

/-- C10 (amended): `newParsed` stores the raw tag string verbatim in `Tags`
(and the word and lemma verbatim); `PartOfSpeech` equals the first
comma-separated token if that token is in the part-of-speech vocabulary and
is empty otherwise (hence it also equals an empty first token that is not in
the vocabulary, which breaks the claim's "only if"); a token equal to the
part of speech is skipped; and every other token is assigned to exactly one
destination, the first matching category in the fixed order, else the
`OtherTags` set (`DispatchSpec`). -/
theorem C10_new_parsed_spec (word lemm tagString : Str) :
    (newParsed word lemm tagString).Tags = tagString ∧
    (newParsed word lemm tagString).Word = word ∧
    (newParsed word lemm tagString).Lemma = lemm ∧
    (newParsed word lemm tagString).PartOfSpeech =
      (if (splitOnComma tagString).headD [] ∈ posTags then (splitOnComma tagString).headD []
       else []) ∧
    (∀ (p : Parsed) (g : Str), g = p.PartOfSpeech → assignGrammeme p g = p) ∧
    (∀ (p : Parsed) (g : Str), g ≠ p.PartOfSpeech → DispatchSpec p g) :=
  ⟨newParsed_Tags word lemm tagString, newParsed_Word word lemm tagString,
   newParsed_Lemma word lemm tagString, newParsed_PartOfSpeech word lemm tagString,
   fun p g h => assignGrammeme_skip p g h, fun p g h => assignGrammeme_dispatch p g h⟩

/-- C10 counterexample: on the empty tag string the first (and only) token is
the empty string, which is not in the part-of-speech vocabulary, yet the
constructed record's `PartOfSpeech` equals that token — so "PartOfSpeech
equals the first token if and only if the token is in the vocabulary" fails
in the "only if" direction. -/
theorem C10_counterexample :
    (newParsed (strOf "w") (strOf "l") []).PartOfSpeech = (splitOnComma []).headD [] ∧
      (splitOnComma []).headD [] ∉ posTags := by decide

/-- C10 witness: on a concrete noun tag string the tags are stored verbatim
and the gender grammeme is dispatched into the `Gender` field. -/
theorem C10_witness :
    (newParsed (strOf "кот") (strOf "кот") (strOf "Существительное,Мужской")).Tags =
        strOf "Существительное,Мужской" ∧
      assignGrammeme (newParsed (strOf "кот") (strOf "кот") (strOf "Существительное,Мужской"))
          (strOf "Мужской") =
        { newParsed (strOf "кот") (strOf "кот") (strOf "Существительное,Мужской") with
            Gender := strOf "Мужской" } := by
  have h := C10_new_parsed_spec (strOf "кот") (strOf "кот") (strOf "Существительное,Мужской")
  refine ⟨h.1, ?_⟩
  have hd := h.2.2.2.2.2 (newParsed (strOf "кот") (strOf "кот") (strOf "Существительное,Мужской"))
    (strOf "Мужской") (by decide)
  exact hd.2.2.2.1 (by decide) (by decide) (by decide) (by decide)

/-- C1 counterexample: in the concrete analyzer `ceA` the terminal node of
"ab" carries payload entries for the two different paradigms 0 and 1, and
both paradigms generate the surface form "ab", yet `Inflect` returns exactly
one record with that surface form instead of one per paradigm. -/
theorem C1_counterexample :
    walkFrom ceA.nodes ceA.edges 0 (strToLower (strOf "ab")) = some 2 ∧
      (payloadWindow ceA.payloads (ceA.nodes.getD 2 default)).map MorphInfo.ParadigmID = [0, 1] ∧
      strOf "ab" ∈ (dfsGenerate ceA 1 (strOf "a") 0 []).map Prod.fst ∧
      strOf "ab" ∈ (dfsGenerate ceA 1 (strOf "a") 1 []).map Prod.fst ∧
      ((Inflect ceA (strOf "ab")).filter (fun p => p.Word = strOf "ab")).length = 1 ∧
      (Inflect ceA (strOf "ab")).length = 3 := by decide

/-- C2 counterexample: the word "ba" is not in the dictionary of `ceP` but is
predictable, so `ParseList` (which runs `Analyze`, falling back to
`ParsePredicted`) returns one record while per-word `Parse` returns none:
the two multisets differ. -/
theorem C2_counterexample :
    ¬ (ParseList ceP [strOf "ba"]).Perm ([strOf "ba"].flatMap fun w => Parse ceP w) := by decide

/-- C3 counterexample: for the upper-cased out-of-vocabulary input "BA" the
predictor finds a winning rule whose substitution is unsafe, and the single
returned parse's lemma is the lower-cased "ba", not the input word "BA". -/
theorem C3_counterexample :
    findBestPrediction ceP (strToLower (strOf "BA")) =
        some { PredictInfo := { Frequency := 7, ParadigmID := 0, FormIdx := 5, TagsID := 0 },
               SuffixLen := 1 } ∧
      fallbackSubstitution ceP (strOf "BA")
        { PredictInfo := { Frequency := 7, ParadigmID := 0, FormIdx := 5, TagsID := 0 },
          SuffixLen := 1 } ∧
      (ParsePredicted ceP (strOf "BA")).map Parsed.Lemma = [strOf "ba"] ∧
      strOf "ba" ≠ strOf "BA" := by decide

/-- C3 witness: the fallback theorem applied to the concrete predictor. -/
theorem C3_witness :
    ParsePredicted ceP (strOf "BA") =
      [newParsed (strOf "BA") (strToLower (strOf "BA")) (ceP.tagsPool.getD 0 [])] :=
  C3_parse_predicted_fallback_lower ceP (strOf "BA")
    { PredictInfo := { Frequency := 7, ParadigmID := 0, FormIdx := 5, TagsID := 0 }, SuffixLen := 1 }
    (by decide) (by decide)

/-- C5 witness: on the concrete predictor the best rule for "ba" is the
single stored suffix rule, and it is among the collected candidates. -/
theorem C5_witness :
    findBestPrediction ceP (strOf "ba") =
        some { PredictInfo := { Frequency := 7, ParadigmID := 0, FormIdx := 5, TagsID := 0 },
               SuffixLen := 1 } ∧
      ({ PredictInfo := { Frequency := 7, ParadigmID := 0, FormIdx := 5, TagsID := 0 },
         SuffixLen := 1 } : PredictionCandidate) ∈ predictCandidates ceP (strOf "ba") := by
  have h := (C5_find_best_prediction_spec ceP (strOf "ba") (by decide)).2
    { PredictInfo := { Frequency := 7, ParadigmID := 0, FormIdx := 5, TagsID := 0 },
      SuffixLen := 1 } (by decide)
  exact ⟨by decide, h.1⟩

/-- C6 witness: in `ceA`, the (sorted) edge window of node 1 contains an edge
labelled 'c' (99) to node 3, and `find_child` returns it. -/
theorem C6_witness : findChildGeneral 1 99 ceA.nodes ceA.edges = some 3 :=
  (C6_find_child_sorted_window ceA.nodes ceA.edges 1 99 (by decide) (by decide)).2.1
    { Char := 99, NodeID := 3 } (by decide) rfl

/-- C7 counterexample: `fileX` has a valid magic and a Nodes region whose
extent in the file (20 bytes, from `NodesOffset` to `EdgesOffset`) differs
from `NodesCount × sizeof(FlatNode)` (16 bytes), yet `loadInternal`
constructs an analyzer instead of failing with any layout error — no
`CorruptLayout` outcome exists in the loader. -/
theorem C7_counterexample :
    loadInternal fileX (fun _ => some cd0) =
        Except.ok { complexData := cd0, nodesBytes := [List.replicate 16 7], edgesBytes := [],
                    payloadsBytes := [], predictNodesBytes := [], predictEdgesBytes := [],
                    predictPayloadsBytes := [] } ∧
      fileX.take 4 = [68, 65, 87, 55] ∧
      headerField fileX 4 - headerField fileX 2 ≠ headerField fileX 3 * (flatNodeSize : Int) :=
  ⟨by rfl, by decide, by decide⟩

/-- C7 witness: the no-validation theorem applied to the concrete file. -/
theorem C7_witness : (loadInternal fileX (fun _ => some cd0)).isOk = true := by
  obtain ⟨la, hla⟩ := C7_load_no_layout_validation fileX (fun _ => some cd0) cd0
    (by decide) (by decide) (fun _ => rfl)
    (by decide) (by decide) (by decide) (by decide) (by decide) (by decide) (by decide)
  rw [hla]
  rfl

/-- C8 witness: the dictionary word "ab" of `ceA` inflects to a non-empty,
strictly ascending form list. -/
theorem C8_witness :
    Inflect ceA (strOf "ab") ≠ [] ∧
      List.Pairwise (fun p q : Parsed => ltb p.Word q.Word = true) (Inflect ceA (strOf "ab")) :=
  C8_inflect_nonempty_sorted ceA (strOf "ab") (by decide) (by decide)

/-- C9 witness: for the predictable word "ba" of `ceP` the single returned
parse carries the winning rule's tag string. -/
theorem C9_witness :
    (ParsePredicted ceP (strOf "ba")).length = 1 ∧
      (ParsePredicted ceP (strOf "ba")).map Parsed.Tags = [ceP.tagsPool.getD 0 []] :=
  C9_parse_predicted_tags ceP (strOf "ba")
    { PredictInfo := { Frequency := 7, ParadigmID := 0, FormIdx := 5, TagsID := 0 }, SuffixLen := 1 }
    (by decide)

end SteosMorphy
